import Mathlib

/-!
Verification of the FPGA_Router parsing pipeline.

The C++ sources (FastParser.cpp, Design.cpp) are shallowly embedded here.
The FastParser owns a NUL-terminated byte buffer and a cursor that only moves
forward, so the parser state is modelled as the list of remaining characters;
reading the current character at or past the end of the buffer yields the NUL
terminator, exactly as in the C++ buffer.  The loaders' while-loops can fail
to terminate on some inputs (the cursor does not always advance), so each
loop takes a fuel argument and returns none when the fuel is exhausted; a run
that the C++ program completes is reproduced by any sufficiently large fuel,
and a run on which the C++ program loops forever yields none for every fuel.
-/

/-- The NUL terminator of the FastParser buffer. -/
def nulChar : Char := Char.ofNat 0

/-- Dereference of the cursor: the character at the current position,
or the NUL terminator at (or past) the end of the buffer. -/
def curChar : List Char → Char
  | [] => nulChar
  | c :: _ => c

/-- The whitespace test of FastParser::skipWhitespace:
space, newline, carriage return or tab. -/
def wsChar (c : Char) : Bool := c == ' ' || c == '\n' || c == '\r' || c == '\t'

/-- The digit test of FastParser::parseInt: between the characters 0 and 9. -/
def isDigitC (c : Char) : Bool := decide ('0' ≤ c) && decide (c ≤ '9')

/-- FastParser::isEOF: the cursor is at or past the end of the content. -/
def isEOF (s : List Char) : Bool := s.isEmpty

/-- FastParser::skipWhitespace: advance while the current character is
whitespace (the NUL terminator is not whitespace, so the loop stops there). -/
def skipWhitespace : List Char → List Char
  | [] => []
  | c :: t => if wsChar c then skipWhitespace t else c :: t

/-- FastParser::peekNextNonWhitespaceChar: skip whitespace without consuming
and return the next character, or NUL at the end of the file. -/
def peekNextNonWhitespaceChar (s : List Char) : Char :=
  curChar (skipWhitespace s)

/-- The digit-accumulation loop of FastParser::parseInt.  The C++ accumulator
is a (signed, overflowing) int; overflow is undefined behaviour there and the
value is modelled as an unbounded Nat. -/
def parseIntLoop : Nat → List Char → Nat × List Char
  | v, [] => (v, [])
  | v, c :: t => if isDigitC c then parseIntLoop (v * 10 + (c.toNat - 48)) t else (v, c :: t)

/-- FastParser::parseInt: skip leading whitespace, then accumulate decimal
digits; a non-digit (or end of buffer) stops the loop, with value 0 if no
digit was consumed. -/
def parseInt (s : List Char) : Nat × List Char :=
  parseIntLoop 0 (skipWhitespace s)

/-- FastParser::parseId: skip whitespace, consume one occurrence of the
prefix character if present, then parse an integer. -/
def parseId (pfx : Char) (s : List Char) : Nat × List Char :=
  parseInt
    (if curChar (skipWhitespace s) = pfx then (skipWhitespace s).tail else skipWhitespace s)

/-- FastParser::skipChar: skip whitespace, consume one occurrence of the
given character if present, then skip whitespace again. -/
def skipChar (c : Char) (s : List Char) : List Char :=
  skipWhitespace
    (if curChar (skipWhitespace s) = c then (skipWhitespace s).tail else skipWhitespace s)

/-! Character-class facts. -/

theorem wsChar_elim {c : Char} (h : wsChar c = true) :
    c = ' ' ∨ c = '\n' ∨ c = '\r' ∨ c = '\t' := by
  simp only [wsChar, Bool.or_eq_true, beq_iff_eq] at h
  tauto

theorem isDigitC_ne {c d : Char} (h : isDigitC c = true) (hd : isDigitC d = false) :
    c ≠ d := by
  intro he
  rw [he, hd] at h
  exact Bool.noConfusion h

theorem wsChar_of_digit {c : Char} (h : isDigitC c = true) : wsChar c = false := by
  cases hw : wsChar c
  · rfl
  · rcases wsChar_elim hw with h1 | h1 | h1 | h1 <;> rw [h1] at h <;> exact absurd h (by decide)

theorem skipWhitespace_cons_ws {c : Char} (t : List Char) (h : wsChar c = true) :
    skipWhitespace (c :: t) = skipWhitespace t := by
  simp [skipWhitespace, h]

theorem skipWhitespace_no_ws {s : List Char} (h : wsChar (curChar s) = false) :
    skipWhitespace s = s := by
  cases s with
  | nil => rfl
  | cons c t => simp only [curChar] at h; simp [skipWhitespace, h]

theorem wsChar_curChar_skipWhitespace (s : List Char) :
    wsChar (curChar (skipWhitespace s)) = false := by
  induction s with
  | nil => decide
  | cons c t ih =>
    by_cases h : wsChar c = true
    · rw [skipWhitespace_cons_ws t h]; exact ih
    · rw [Bool.not_eq_true] at h
      rw [@skipWhitespace_no_ws (c :: t) h]
      exact h

theorem skipWhitespace_idem (s : List Char) :
    skipWhitespace (skipWhitespace s) = skipWhitespace s :=
  skipWhitespace_no_ws (wsChar_curChar_skipWhitespace s)

/-! Decimal rendering of a natural number (most significant digit first) and
the round trip through parseInt.  These are used to describe well-formed
input files in the claims about the loaders. -/

/-- The decimal digit character for d (d is always taken below 10). -/
def digitChar (d : Nat) : Char :=
  if d = 0 then '0' else if d = 1 then '1' else if d = 2 then '2' else if d = 3 then '3'
  else if d = 4 then '4' else if d = 5 then '5' else if d = 6 then '6' else if d = 7 then '7'
  else if d = 8 then '8' else '9'

/-- Decimal rendering of a natural number. -/
def renderNat (n : Nat) : List Char :=
  if n < 10 then [digitChar n] else renderNat (n / 10) ++ [digitChar (n % 10)]
  decreasing_by exact Nat.div_lt_self (by omega) (by omega)

/-- Number of decimal digits of a natural number. -/
def numDigits (n : Nat) : Nat :=
  if n < 10 then 1 else numDigits (n / 10) + 1
  decreasing_by exact Nat.div_lt_self (by omega) (by omega)

theorem digitChar_spec {d : Nat} (h : d < 10) :
    isDigitC (digitChar d) = true ∧ (digitChar d).toNat - 48 = d := by
  interval_cases d <;> exact ⟨by decide, by decide⟩

theorem renderNat_digits (n : Nat) : ∀ c ∈ renderNat n, isDigitC c = true := by
  induction n using Nat.strong_induction_on with
  | _ n ih =>
    rw [renderNat]
    split
    · next h =>
      intro c hc
      simp only [List.mem_singleton] at hc
      rw [hc]
      exact (digitChar_spec h).1
    · next h =>
      intro c hc
      rw [List.mem_append] at hc
      rcases hc with hc | hc
      · exact ih (n / 10) (Nat.div_lt_self (by omega) (by omega)) c hc
      · simp only [List.mem_singleton] at hc
        rw [hc]
        exact (digitChar_spec (Nat.mod_lt n (by omega))).1

theorem renderNat_ne_nil (n : Nat) : renderNat n ≠ [] := by
  rw [renderNat]
  split
  · simp
  · simp

theorem curChar_append_digit (n : Nat) (rest : List Char) :
    isDigitC (curChar (renderNat n ++ rest)) = true := by
  cases h : renderNat n with
  | nil => exact absurd h (renderNat_ne_nil n)
  | cons c t =>
    simp only [List.cons_append, curChar]
    exact renderNat_digits n c (by rw [h]; exact List.mem_cons_self c t)

theorem skipWhitespace_render (n : Nat) (rest : List Char) :
    skipWhitespace (renderNat n ++ rest) = renderNat n ++ rest :=
  skipWhitespace_no_ws (wsChar_of_digit (curChar_append_digit n rest))

theorem parseIntLoop_render (n : Nat) : ∀ v rest,
    parseIntLoop v (renderNat n ++ rest) = parseIntLoop (v * 10 ^ numDigits n + n) rest := by
  induction n using Nat.strong_induction_on with
  | _ n ih =>
    intro v rest
    rw [renderNat, numDigits]
    split
    · next h =>
      have hd := digitChar_spec h
      simp only [List.cons_append, List.nil_append, parseIntLoop, hd.1, if_true, hd.2, pow_one,
        List.append_nil, List.append_eq]
    · next h =>
      rw [List.append_assoc, List.cons_append, List.nil_append,
        ih (n / 10) (Nat.div_lt_self (by omega) (by omega)) v (digitChar (n % 10) :: rest)]
      have hd := digitChar_spec (Nat.mod_lt n (show 0 < 10 by omega))
      simp only [parseIntLoop, hd.1, if_true, hd.2]
      have h1 : (v * 10 ^ numDigits (n / 10) + n / 10) * 10 + n % 10
          = v * (10 ^ numDigits (n / 10) * 10) + (n / 10 * 10 + n % 10) := by ring
      have h2 : n / 10 * 10 + n % 10 = n := by omega
      rw [h1, h2, ← pow_succ]

theorem parseIntLoop_stop {s : List Char} (v : Nat) (h : isDigitC (curChar s) = false) :
    parseIntLoop v s = (v, s) := by
  cases s with
  | nil => rfl
  | cons c t => simp only [curChar] at h; simp [parseIntLoop, h]

theorem parseInt_render {rest : List Char} (n : Nat)
    (h : isDigitC (curChar rest) = false) :
    parseInt (renderNat n ++ rest) = (n, rest) := by
  rw [parseInt, skipWhitespace_render, parseIntLoop_render, parseIntLoop_stop _ h,
    Nat.zero_mul, Nat.zero_add]

/-! The data model of DataTypes.hpp.  Pointers are modelled by stable ids:
a Node* is the node's key in the node table, and a Node's FPGA* is the index
(slot) of the FPGA inside the dense FPGA array; an FPGA's node list holds the
node keys in push_back order. -/

/-- An FPGA record; the default constructor gives the empty sentinel. -/
structure FPGA where
  id : Int
  max_io : Int
  nodes : List Nat
deriving DecidableEq

/-- The default-constructed FPGA(): id -1, max_io 0, empty node list. -/
def sentinelFPGA : FPGA := ⟨-1, 0, []⟩

/-- A logical node: its id and the slot of the FPGA it is placed on
(none models a null FPGA pointer). -/
structure Node where
  id : Int
  fpga : Option Nat
deriving DecidableEq

/-- A net: sequential id, source node key (none models a null pointer),
sink node keys in file order, and the parsed weight. -/
structure Net where
  id : Nat
  source : Option Nat
  sinks : List Nat
  weight : Nat
deriving DecidableEq

/-- The Design model: FPGA array, node table, net list, topology matrix. -/
structure Design where
  fpgas : List FPGA
  nodes : List (Nat × Node)
  nets : List Net
  topology : List (List Nat)
deriving DecidableEq

/-- Lookup in the node table (std::unordered_map is modelled as an
association list with unique keys). -/
def lookupNode (ns : List (Nat × Node)) (k : Nat) : Option Node := ns.lookup k

/-! Design::loadInfo. -/

/-- The parsing loop of Design::loadInfo: collect the (id, maxIo) pairs with
positive id, in file order. -/
def infoLoop : Nat → List Char → List (Nat × Nat) → Option (List (Nat × Nat))
  | 0, _, _ => none
  | fuel + 1, s, acc =>
    if isEOF s then some acc else
    let s1 := skipWhitespace s
    if isEOF s1 then some acc else
    let p := parseId 'F' s1
    let q := parseInt p.2
    infoLoop fuel q.2 (if 0 < p.1 then acc ++ [(p.1, q.1)] else acc)

/-- The running maximum FPGA id of Design::loadInfo (updated only for
positive ids, which is what infoLoop collects). -/
def maxIdOf (ds : List (Nat × Nat)) : Nat := ds.foldl (fun m d => max m d.1) 0

/-- One write of the fill loop of Design::loadInfo: place FPGA(id, maxIo) at
slot id - 1. -/
def infoStep (arr : List FPGA) (d : Nat × Nat) : List FPGA :=
  if 0 < d.1 then arr.set (d.1 - 1) ⟨(d.1 : Int), (d.2 : Int), []⟩ else arr

/-- The array-building phase of Design::loadInfo: resize to the maximum id
(default-constructed sentinels), then write every collected pair in order. -/
def buildFpgas (maxId : Nat) (ds : List (Nat × Nat)) : List FPGA :=
  ds.foldl infoStep (List.replicate maxId sentinelFPGA)

/-- Design::loadInfo over a file buffer. -/
def loadInfo (fuel : Nat) (input : List Char) : Option (List FPGA) :=
  (infoLoop fuel input []).map (fun ds => buildFpgas (maxIdOf ds) ds)

/-! Design::loadFpgaMapping. -/

/-- Assign the fpga field of the node with key nid (first match in the
association list; keys are unique). -/
def setNodeFpga : List (Nat × Node) → Nat → Nat → List (Nat × Node)
  | [], _, _ => []
  | (k, nd) :: t, nid, slot =>
    if k = nid then (k, ⟨nd.id, some slot⟩) :: t else (k, nd) :: setNodeFpga t nid slot

/-- The body of the node loop of Design::loadFpgaMapping: create the node on
first sight, re-assign its FPGA reference, and push it onto the target
FPGA's node list. -/
def mapAssign (fpgas : List FPGA) (nodes : List (Nat × Node)) (slot nid : Nat) :
    List FPGA × List (Nat × Node) :=
  let nodes1 :=
    if (lookupNode nodes nid).isNone then nodes ++ [(nid, ⟨(nid : Int), none⟩)] else nodes
  let nodes2 := setNodeFpga nodes1 nid slot
  let f := fpgas.getD slot sentinelFPGA
  (fpgas.set slot ⟨f.id, f.max_io, f.nodes ++ [nid]⟩, nodes2)

/-- The inner node loop of Design::loadFpgaMapping: parse node ids until the
lookahead yields the next FPGA line marker or end of buffer. -/
def mapInner : Nat → List Char → Nat → List FPGA → List (Nat × Node) →
    Option (List Char × List FPGA × List (Nat × Node))
  | 0, _, _, _, _ => none
  | fuel + 1, s, slot, fpgas, nodes =>
    if isEOF s then some (s, fpgas, nodes) else
    let c := peekNextNonWhitespaceChar s
    if c = 'F' ∨ c = nulChar then some (s, fpgas, nodes) else
    let p := parseId 'g' s
    let st := mapAssign fpgas nodes slot p.1
    mapInner fuel p.2 slot st.1 st.2

/-- The outer line loop of Design::loadFpgaMapping: parse the FPGA id and the
colon; an out-of-range id skips the line's FPGA resolution (continue),
otherwise the node loop runs against slot id - 1. -/
def mapOuter : Nat → List Char → List FPGA → List (Nat × Node) →
    Option (List FPGA × List (Nat × Node))
  | 0, _, _, _ => none
  | fuel + 1, s, fpgas, nodes =>
    if isEOF s then some (fpgas, nodes) else
    let s1 := skipWhitespace s
    if isEOF s1 then some (fpgas, nodes) else
    let p := parseId 'F' s1
    let s3 := skipChar ':' p.2
    if p.1 = 0 ∨ fpgas.length < p.1 then mapOuter fuel s3 fpgas nodes
    else
      match mapInner fuel s3 (p.1 - 1) fpgas nodes with
      | none => none
      | some (s4, fpgas', nodes') => mapOuter fuel s4 fpgas' nodes'

/-- Design::loadFpgaMapping: the SequenceError when no FPGA has been loaded,
then the line loop. -/
def loadFpgaMapping (fuel : Nat) (input : List Char) (fpgas : List FPGA)
    (nodes : List (Nat × Node)) : Option (Except Unit (List FPGA × List (Nat × Node))) :=
  if fpgas.isEmpty then some (.error ()) else
  (mapOuter fuel input fpgas nodes).map .ok

/-! Design::loadNets.  Every endpoint resolution goes through
std::unordered_map::at, which throws on a missing key; the run therefore also
records the trace of endpoint ids it attempted to resolve, so that claims
about the fail-hard policy can relate the error to the attempted lookups. -/

/-- Error taxonomy of Design::loadNets: the SequenceError thrown when the
node table is empty, and the LookupError of std::unordered_map::at. -/
inductive NetErr where
  | seq : NetErr
  | lookup : NetErr
deriving DecidableEq

/-- The sink loop of Design::loadNets: parse sink ids while the lookahead is
the node-id marker, resolving each one fail-hard. -/
def sinkLoop : Nat → List Char → List (Nat × Node) → List Nat → List Nat →
    Option (List Nat × Except NetErr (List Char × List Nat))
  | 0, _, _, _, _ => none
  | fuel + 1, s, tbl, sinks, tr =>
    if isEOF s then some (tr, .ok (s, sinks)) else
    let c := peekNextNonWhitespaceChar s
    if c ≠ 'g' then some (tr, .ok (s, sinks)) else
    let p := parseId 'g' s
    match lookupNode tbl p.1 with
    | none => some (tr ++ [p.1], .error .lookup)
    | some _ => sinkLoop fuel p.2 tbl (sinks ++ [p.1]) (tr ++ [p.1])

/-- The outer loop of Design::loadNets: per iteration parse the source id
(fail-hard), the weight integer, and the sink run; net ids come from the
running counter. -/
def netLoop : Nat → List Char → List (Nat × Node) → Nat → List Net → List Nat →
    Option (List Nat × Except NetErr (List Net))
  | 0, _, _, _, _, _ => none
  | fuel + 1, s, tbl, ctr, nets, tr =>
    if isEOF s then some (tr, .ok nets) else
    let s1 := skipWhitespace s
    if isEOF s1 then some (tr, .ok nets) else
    let p := parseId 'g' s1
    match lookupNode tbl p.1 with
    | none => some (tr ++ [p.1], .error .lookup)
    | some _ =>
      let q := parseInt p.2
      match sinkLoop fuel q.2 tbl [] (tr ++ [p.1]) with
      | none => none
      | some (tr2, .error e) => some (tr2, .error e)
      | some (tr2, .ok (s4, sinks)) =>
          netLoop fuel s4 tbl (ctr + 1) (nets ++ [⟨ctr, some p.1, sinks, q.1⟩]) tr2

/-- Design::loadNets: the SequenceError when the node table is empty, then
the net loop with the id counter starting at 1. -/
def loadNets (fuel : Nat) (input : List Char) (tbl : List (Nat × Node)) :
    Option (List Nat × Except NetErr (List Net)) :=
  if tbl.isEmpty then some ([], .error .seq) else
  netLoop fuel input tbl 1 [] []

/-! Design::loadTopo. -/

/-- The row fill loop of Design::loadTopo: read the given number of integers,
consuming a comma delimiter between consecutive values but not after the
last one. -/
def readRow : Nat → List Char → List Nat × List Char
  | 0, s => ([], s)
  | k + 1, s =>
    let p := parseInt s
    let s2 := if k = 0 then p.2 else skipChar ',' p.2
    let q := readRow k s2
    (p.1 :: q.1, q.2)

/-- The line loop of Design::loadTopo: parse the FPGA id and colon; a line
whose id is in range has its row read into slot id - 1, otherwise the fill
loop is skipped. -/
def topoLoop : Nat → List Char → Nat → List (List Nat) → Option (List (List Nat))
  | 0, _, _, _ => none
  | fuel + 1, s, numF, m =>
    if isEOF s then some m else
    let s1 := skipWhitespace s
    if isEOF s1 then some m else
    let p := parseId 'F' s1
    let s3 := skipChar ':' p.2
    if 0 < p.1 ∧ p.1 ≤ numF then
      let q := readRow numF s3
      topoLoop fuel q.2 numF (m.set (p.1 - 1) q.1)
    else topoLoop fuel s3 numF m

/-- Design::loadTopo: the SequenceError when no FPGA has been loaded, an
N-by-N zero matrix (vector resize value-initializes the rows), then the line
loop. -/
def loadTopo (fuel : Nat) (input : List Char) (fpgas : List FPGA) :
    Option (Except Unit (List (List Nat))) :=
  if fpgas.isEmpty then some (.error ()) else
  (topoLoop fuel input fpgas.length
    (List.replicate fpgas.length (List.replicate fpgas.length 0))).map .ok

/-! The logical-demand computation of Design::generateVisualizationData
(only the matrix; the JSON writer is an external consumer of it). -/

/-- Dereference a Node* stored in a net: the fpga slot of the node with that
key.  A key missing from the table would be a dangling pointer in the C++
(never produced by the pipeline); it behaves here like an unmapped node. -/
def nodeSlot (d : Design) (nid : Nat) : Option Nat :=
  ((lookupNode d.nodes nid).getD ⟨(-1 : Int), none⟩).fpga

/-- Dereference an FPGA* slot: the id field stored in that slot. -/
def slotFpgaId (d : Design) (slot : Nat) : Int := (d.fpgas.getD slot sentinelFPGA).id

/-- Matrix cell read, out-of-range reads defaulting to 0. -/
def mget (m : List (List Nat)) (i j : Nat) : Nat := (m.getD i []).getD j 0

/-- Increment of one matrix cell.  In the C++ the indices are ints and an
out-of-range index is undefined behaviour; the claims only apply the
increment at in-range indices, where List.set performs the same write. -/
def bumpN (m : List (List Nat)) (i j : Nat) : List (List Nat) :=
  m.set i ((m.getD i []).set j (mget m i j + 1))

/-- The per-sink step of the demand loop: a sink with no FPGA is skipped; a
sink on the source's own FPGA is skipped; otherwise both symmetric cells are
incremented. -/
def demandSink (d : Design) (srcIdx : Int) (m : List (List Nat)) (snk : Nat) :
    List (List Nat) :=
  match nodeSlot d snk with
  | none => m
  | some kslot =>
    let sinkIdx : Int := slotFpgaId d kslot - 1
    if srcIdx ≠ sinkIdx then
      bumpN (bumpN m srcIdx.toNat sinkIdx.toNat) sinkIdx.toNat srcIdx.toNat
    else m

/-- The per-net step of the demand loop: a net with an unresolved source or
an unmapped source node is skipped. -/
def demandNet (d : Design) (m : List (List Nat)) (net : Net) : List (List Nat) :=
  match net.source with
  | none => m
  | some sid =>
    match nodeSlot d sid with
    | none => m
    | some slot => net.sinks.foldl (demandSink d (slotFpgaId d slot - 1)) m

/-- The logical-demand matrix of Design::generateVisualizationData. -/
def logicalDemand (d : Design) : List (List Nat) :=
  d.nets.foldl (demandNet d) (List.replicate d.fpgas.length (List.replicate d.fpgas.length 0))

/-! Design::groupNetsByFpgaConnection. -/

/-- std::to_string on an int. -/
def intStr (i : Int) : List Char :=
  if i < 0 then '-' :: renderNat i.natAbs else renderNat i.toNat

/-- The increment sinkFpgaCounts[id]++ on a std::map<int,int>, modelled as a
key-sorted association list (value-initialization makes a fresh count 1). -/
def incrSinkCount : List (Int × Nat) → Int → List (Int × Nat)
  | [], k => [(k, 1)]
  | (a, c) :: t, k =>
    if k < a then (k, 1) :: (a, c) :: t
    else if k = a then (a, c + 1) :: t
    else (a, c) :: incrSinkCount t k

/-- The source-FPGA slot of a net as groupNetsByFpgaConnection reads it:
null source pointer or null FPGA pointer give none. -/
def netSrcSlot (d : Design) (net : Net) : Option Nat := net.source.bind (nodeSlot d)

/-- The source FPGA id of a net (the id field of the referenced slot). -/
def netSrcFpgaId (d : Design) (net : Net) : Option Int := (netSrcSlot d net).map (slotFpgaId d)

/-- The per-sink step of the counting loop: sinks with no FPGA are skipped,
sinks on the source's FPGA are ignored, others are counted per FPGA id. -/
def sinkCountStep (d : Design) (f : Int) (mp : List (Int × Nat)) (snk : Nat) :
    List (Int × Nat) :=
  match nodeSlot d snk with
  | none => mp
  | some ks => if slotFpgaId d ks = f then mp else incrSinkCount mp (slotFpgaId d ks)

/-- The sinkFpgaCounts map of one net. -/
def netSinkCounts (d : Design) (net : Net) : List (Int × Nat) :=
  match netSrcFpgaId d net with
  | none => []
  | some f => net.sinks.foldl (sinkCountStep d f) []

/-- One "id(count)" fragment of the connection pattern. -/
def entryStr (e : Int × Nat) : List Char := intStr e.1 ++ '(' :: (renderNat e.2 ++ [')'])

/-- The connection-pattern string: "src:" then the entries, with a comma
prepended to every entry that does not come first (the C++ tests whether the
pattern has grown beyond "src:" before appending the comma). -/
def buildPattern (src : Int) (cs : List (Int × Nat)) : List Char :=
  cs.foldl (fun acc e =>
    (if (intStr src).length + 1 < acc.length then acc ++ [','] else acc) ++ entryStr e)
    (intStr src ++ [':'])

/-- Lexicographic comparison of std::string keys. -/
def strLt : List Char → List Char → Bool
  | [], [] => false
  | [], _ :: _ => true
  | _ :: _, [] => false
  | a :: as, b :: bs => if a < b then true else if b < a then false else strLt as bs

/-- Insert a net id under its pattern key in the std::map<string,vector<int>>
of groups, modelled as a key-sorted association list with push_back values. -/
def addGroup : List (List Char × List Nat) → List Char → Nat → List (List Char × List Nat)
  | [], k, i => [(k, [i])]
  | (k0, g) :: t, k, i =>
    if strLt k k0 then (k, [i]) :: (k0, g) :: t
    else if k = k0 then (k0, g ++ [i]) :: t
    else (k0, g) :: addGroup t k i

/-- The connection-pattern key of a net, none when the net is skipped. -/
def netKey (d : Design) (net : Net) : Option (List Char) :=
  (netSrcFpgaId d net).map (fun f => buildPattern f (netSinkCounts d net))

/-- The per-net step of groupNetsByFpgaConnection. -/
def groupStep (d : Design) (gs : List (List Char × List Nat)) (net : Net) :
    List (List Char × List Nat) :=
  match netKey d net with
  | none => gs
  | some k => addGroup gs k net.id

/-- The accumulated group map over all nets. -/
def groupsFold (d : Design) : List (List Char × List Nat) := d.nets.foldl (groupStep d) []

/-- The returned groups: the map's value lists in ascending key order. -/
def groupsOf (d : Design) : List (List Nat) := (groupsFold d).map (·.2)

/-- Design::groupNetsByFpgaConnection with its precondition check. -/
def groupNetsByFpgaConnection (d : Design) : Except Unit (List (List Nat)) :=
  if d.nets.isEmpty || d.fpgas.isEmpty then .error () else .ok (groupsOf d)

/-! Renderings of well-formed input files, used to state claims that
quantify over the grammar of an input format. -/

/-- A well-formed info file: one "F<id> <maxIo>" line per pair. -/
def renderInfo : List (Nat × Nat) → List Char
  | [] => []
  | p :: ps => 'F' :: (renderNat p.1 ++ ' ' :: (renderNat p.2 ++ '\n' :: renderInfo ps))

/-- The node tokens of one mapping line: " g<id>" each. -/
def renderNodes : List Nat → List Char
  | [] => []
  | n :: ns => ' ' :: 'g' :: (renderNat n ++ renderNodes ns)

/-- A well-formed mapping file: one "F<id>: g<n> ..." line per entry. -/
def renderMapping : List (Nat × List Nat) → List Char
  | [] => []
  | l :: ls => 'F' :: (renderNat l.1 ++ ':' :: (renderNodes l.2 ++ '\n' :: renderMapping ls))

/-- The comma-separated values of one topology row. -/
def renderRow : List Nat → List Char
  | [] => []
  | [v] => renderNat v
  | v :: w :: vs => renderNat v ++ ',' :: renderRow (w :: vs)

/-- A well-formed topology file: one "F<id>: v1,...,vN" line per entry. -/
def renderTopo : List (Nat × List Nat) → List Char
  | [] => []
  | l :: ls => 'F' :: (renderNat l.1 ++ ':' :: ' ' :: (renderRow l.2 ++ '\n' :: renderTopo ls))

/-! Generic list lemmas used by several loader proofs. -/

theorem foldl_inv {α σ : Type} (P : σ → Prop) (f : σ → α → σ) :
    ∀ (l : List α) (s : σ), P s → (∀ s a, a ∈ l → P s → P (f s a)) → P (l.foldl f s) := by
  intro l
  induction l with
  | nil => intro s hs _; exact hs
  | cons a t ih =>
    intro s hs hstep
    exact ih (f s a) (hstep s a (List.mem_cons_self a t) hs)
      (fun s' b hb => hstep s' b (List.mem_cons_of_mem a hb))

theorem getD_set_same {α : Type} {l : List α} {i : Nat} (a d : α) (h : i < l.length) :
    (l.set i a).getD i d = a := by
  rw [List.getD_eq_getElem?_getD, List.getElem?_set_self', List.getElem?_eq_getElem h]
  rfl

theorem getD_set_ne {α : Type} {l : List α} {i j : Nat} (a d : α) (h : i ≠ j) :
    (l.set i a).getD j d = l.getD j d := by
  rw [List.getD_eq_getElem?_getD, List.getElem?_set_ne h, ← List.getD_eq_getElem?_getD]

/-- The last element of a list satisfying a predicate. -/
def lastBy {β : Type} (p : β → Bool) (l : List β) : Option β := l.reverse.find? p

theorem lastBy_nil {β : Type} (p : β → Bool) : lastBy p [] = none := rfl

theorem lastBy_cons {β : Type} (p : β → Bool) (b : β) (l : List β) :
    lastBy p (b :: l) =
      match lastBy p l with
      | some x => some x
      | none => if p b then some b else none := by
  rw [lastBy, List.reverse_cons, List.find?_append]
  cases h : List.find? p l.reverse with
  | none =>
    rw [lastBy, h]
    cases hb : p b <;> simp [List.find?, hb]
  | some x =>
    rw [lastBy, h]
    rfl

theorem lastBy_mem {β : Type} {p : β → Bool} {l : List β} {x : β}
    (h : lastBy p l = some x) : x ∈ l ∧ p x = true := by
  have h1 := List.find?_some h
  have h2 := List.mem_of_find?_eq_some h
  exact ⟨List.mem_reverse.mp h2, h1⟩

theorem lastBy_eq_none {β : Type} {p : β → Bool} {l : List β}
    (h : ∀ x ∈ l, p x = false) : lastBy p l = none := by
  rw [lastBy, List.find?_eq_none]
  intro x hx
  rw [h x (List.mem_reverse.mp hx)]
  simp

/-- Characterization of a left fold of keyed writes over a dense array:
cell i holds the value of the last entry with key i + 1, or the initial cell
when no entry has that key.  Both loadInfo's array fill and loadTopo's row
fill have this shape. -/
theorem foldl_set_getD {α β : Type} (key : β → Nat) (val : β → α) (d : α) :
    ∀ (ps : List β) (arr : List α) (i : Nat),
      (∀ p ∈ ps, 1 ≤ key p ∧ key p ≤ arr.length) →
      (ps.foldl (fun a p => a.set (key p - 1) (val p)) arr).getD i d =
        (lastBy (fun p => key p == i + 1) ps).elim (arr.getD i d) val := by
  intro ps
  induction ps with
  | nil => intro arr i _; simp [lastBy_nil]
  | cons p t ih =>
    intro arr i hk
    have hp := hk p (List.mem_cons_self p t)
    have hlen : (arr.set (key p - 1) (val p)).length = arr.length := List.length_set arr _ _
    have ht : ∀ q ∈ t, 1 ≤ key q ∧ key q ≤ (arr.set (key p - 1) (val p)).length := by
      intro q hq
      rw [hlen]
      exact hk q (List.mem_cons_of_mem p hq)
    rw [List.foldl_cons, ih (arr.set (key p - 1) (val p)) i ht, lastBy_cons]
    cases hl : lastBy (fun q => key q == i + 1) t with
    | some q => rfl
    | none =>
      by_cases he : key p = i + 1
      · have hb : (fun q => key q == i + 1) p = true := by simp [he]
        simp only [hb, if_true, Option.elim]
        have hi : i < arr.length := by omega
        have hkey : key p - 1 = i := by omega
        rw [hkey, getD_set_same _ _ hi]
      · have hb : (fun q => key q == i + 1) p = false := by simp [he]
        have hne : key p - 1 ≠ i := by omega
        rw [getD_set_ne _ _ hne]
        simp [hb]

theorem foldl_set_length {α β : Type} (key : β → Nat) (val : β → α) :
    ∀ (ps : List β) (arr : List α),
      (ps.foldl (fun a p => a.set (key p - 1) (val p)) arr).length = arr.length := by
  intro ps
  induction ps with
  | nil => intro arr; rfl
  | cons p t ih => intro arr; rw [List.foldl_cons, ih, List.length_set]

/-! Claim C2.  The spec says an out-of-range FPGA id makes loadFpgaMapping
skip the line leniently and continue with the remaining lines, and the code
comments this branch with "Skip line if FPGA ID is invalid."  But after the
continue the cursor still points at the line's first node token; parseId('F')
then consumes nothing (no 'F' prefix, no digit), the id parses as 0, and the
loop repeats at the same position forever.  On the input "F2: g1" with a
single loaded FPGA the loader never terminates: the run is none for every
fuel. -/

theorem mapOuter_stuck_step (fuel : Nat) (fpgas : List FPGA) (nodes : List (Nat × Node)) :
    mapOuter (fuel + 1) ['g', '1'] fpgas nodes = mapOuter fuel ['g', '1'] fpgas nodes := rfl

theorem mapOuter_stuck (fpgas : List FPGA) (nodes : List (Nat × Node)) :
    ∀ fuel, mapOuter fuel ['g', '1'] fpgas nodes = none
  | 0 => rfl
  | fuel + 1 => by
    rw [mapOuter_stuck_step]
    exact mapOuter_stuck fpgas nodes fuel

/-- C2: the claim that loadFpgaMapping treats an out-of-range FPGA id
leniently, skips the line and terminates normally is contradicted by the
code: on the mapping input "F2: g1" with exactly one FPGA loaded, the
out-of-range branch continues the loop without advancing the cursor past the
node tokens, and loadFpgaMapping loops forever (the fuelled run is none for
every fuel). -/
theorem c2_mapping_out_of_range_diverges :
    ∀ fuel, loadFpgaMapping fuel (String.data "F2: g1") [⟨1, 8, []⟩] [] = none := by
  intro fuel
  show (mapOuter fuel (String.data "F2: g1") [⟨1, 8, []⟩] []).map Except.ok = none
  cases fuel with
  | zero => rfl
  | succ n =>
    have hstep : mapOuter (n + 1) (String.data "F2: g1") [⟨1, 8, []⟩] []
        = mapOuter n ['g', '1'] [⟨1, 8, []⟩] [] := rfl
    rw [hstep, mapOuter_stuck]
    rfl

/-! Parsing lemmas for rendered tokens. -/

theorem isEOF_nil : isEOF ([] : List Char) = true := rfl

theorem isEOF_cons (c : Char) (t : List Char) : isEOF (c :: t) = false := rfl

theorem parseInt_cons_ws {c : Char} (h : wsChar c = true) (s : List Char) :
    parseInt (c :: s) = parseInt s := by
  rw [parseInt, skipWhitespace_cons_ws _ h, parseInt]

theorem parseId_cons_ws {c : Char} (h : wsChar c = true) (pfx : Char) (s : List Char) :
    parseId pfx (c :: s) = parseId pfx s := by
  rw [parseId, skipWhitespace_cons_ws _ h, parseId]

theorem skipChar_cons_ws {c : Char} (h : wsChar c = true) (x : Char) (s : List Char) :
    skipChar x (c :: s) = skipChar x s := by
  rw [skipChar, skipWhitespace_cons_ws _ h, skipChar]

theorem peek_cons_ws {c : Char} (h : wsChar c = true) (s : List Char) :
    peekNextNonWhitespaceChar (c :: s) = peekNextNonWhitespaceChar s := by
  rw [peekNextNonWhitespaceChar, skipWhitespace_cons_ws _ h, peekNextNonWhitespaceChar]

theorem curChar_cons (c : Char) (t : List Char) : curChar (c :: t) = c := rfl

theorem parseId_render (pfx : Char) (hpfx : wsChar pfx = false)
    (n : Nat) (rest : List Char) (hrest : isDigitC (curChar rest) = false) :
    parseId pfx (pfx :: (renderNat n ++ rest)) = (n, rest) := by
  have h1 : skipWhitespace (pfx :: (renderNat n ++ rest)) = pfx :: (renderNat n ++ rest) :=
    skipWhitespace_no_ws hpfx
  rw [parseId, h1, if_pos (show curChar (pfx :: (renderNat n ++ rest)) = pfx from rfl)]
  exact parseInt_render n hrest

/-- parseId when the prefix character is absent and the input starts with
digits: the digits themselves are consumed as the id. -/
theorem parseId_render_bare (pfx : Char)
    (n : Nat) (rest : List Char) (hpfx : ∀ c ∈ renderNat n, c ≠ pfx)
    (hrest : isDigitC (curChar rest) = false) :
    parseId pfx (renderNat n ++ rest) = (n, rest) := by
  rw [parseId, skipWhitespace_render]
  rw [if_neg]
  · exact parseInt_render n hrest
  · intro hc
    cases h : renderNat n with
    | nil => exact absurd h (renderNat_ne_nil n)
    | cons c t =>
      rw [h] at hc
      simp only [List.cons_append, curChar] at hc
      exact hpfx c (by rw [h]; exact List.mem_cons_self c t) hc

theorem skipChar_render_match (c : Char) (t : List Char) (hc : wsChar c = false) :
    skipChar c (c :: t) = skipWhitespace t := by
  have h1 : skipWhitespace (c :: t) = c :: t := skipWhitespace_no_ws hc
  rw [skipChar, h1, if_pos (show curChar (c :: t) = c from rfl)]
  rfl

/-! Claim C4: Design::loadInfo on a well-formed info file. -/

theorem skipWhitespace_renderInfo (ps : List (Nat × Nat)) :
    skipWhitespace (renderInfo ps) = renderInfo ps := by
  cases ps with
  | nil => rfl
  | cons p t =>
    have hcur : curChar (renderInfo (p :: t)) = 'F' := rfl
    exact skipWhitespace_no_ws (by rw [hcur]; decide)

theorem infoLoop_skip (fuel : Nat) (s : List Char) (acc : List (Nat × Nat)) :
    infoLoop fuel s acc = infoLoop fuel (skipWhitespace s) acc := by
  cases fuel with
  | zero => rfl
  | succ n =>
    have hid := skipWhitespace_idem s
    cases s with
    | nil => rfl
    | cons c0 t0 =>
      cases hs : skipWhitespace (c0 :: t0) with
      | nil =>
        simp only [infoLoop, isEOF_cons, isEOF_nil, hs, Bool.false_eq_true, if_false, if_true]
      | cons c t =>
        rw [hs] at hid
        simp only [infoLoop, isEOF_cons, Bool.false_eq_true, if_false, hs, hid]

theorem infoLoop_render : ∀ (ps : List (Nat × Nat)) (fuel : Nat) (acc : List (Nat × Nat)),
    ps.length < fuel → (∀ p ∈ ps, 0 < p.1) →
    infoLoop fuel (renderInfo ps) acc = some (acc ++ ps) := by
  intro ps
  induction ps with
  | nil =>
    intro fuel acc hf _
    cases fuel with
    | zero => omega
    | succ n => simp [infoLoop, renderInfo, isEOF_nil]
  | cons p t ih =>
    intro fuel acc hf hpos
    cases fuel with
    | zero => omega
    | succ n =>
      have hr : renderInfo (p :: t)
          = 'F' :: (renderNat p.1 ++ (' ' :: (renderNat p.2 ++ '\n' :: renderInfo t))) := rfl
      have h1 : skipWhitespace (renderInfo (p :: t)) = renderInfo (p :: t) :=
        skipWhitespace_renderInfo _
    -- parse the FPGA id
      have h2 : parseId 'F' (renderInfo (p :: t))
          = (p.1, ' ' :: (renderNat p.2 ++ '\n' :: renderInfo t)) := by
        rw [hr]
        exact parseId_render 'F' (by decide) p.1 _ (by rw [curChar_cons]; decide)
    -- parse the max_io value
      have h3 : parseInt (' ' :: (renderNat p.2 ++ '\n' :: renderInfo t))
          = (p.2, '\n' :: renderInfo t) := by
        rw [parseInt_cons_ws (by decide)]
        exact parseInt_render p.2 (by rw [curChar_cons]; decide)
      simp only [infoLoop, hr]
      rw [← hr, h1, hr]
      simp only [isEOF_cons, Bool.false_eq_true, if_false]
      rw [← hr, h2, h3]
      simp only [hpos p (List.mem_cons_self p t), if_pos]
      rw [infoLoop_skip, skipWhitespace_cons_ws _ (by decide), skipWhitespace_renderInfo,
        ih n (acc ++ [p]) (by simpa using hf) (fun q hq => hpos q (List.mem_cons_of_mem p hq))]
      simp

theorem foldl_congr_mem {α β : Type} (f g : α → β → α) :
    ∀ (l : List β) (a : α), (∀ x ∈ l, ∀ acc, f acc x = g acc x) → l.foldl f a = l.foldl g a := by
  intro l
  induction l with
  | nil => intro a _; rfl
  | cons x t ih =>
    intro a h
    rw [List.foldl_cons, List.foldl_cons, h x (List.mem_cons_self x t) a,
      ih (g a x) (fun y hy acc => h y (List.mem_cons_of_mem x hy) acc)]

theorem le_foldl_max (l : List (Nat × Nat)) :
    ∀ m : Nat, m ≤ l.foldl (fun a d => max a d.1) m := by
  induction l with
  | nil => intro m; exact Nat.le_refl m
  | cons x t ih => intro m; exact le_trans (Nat.le_max_left m x.1) (ih (max m x.1))

theorem mem_le_foldl_max {p : Nat × Nat} : ∀ (ps : List (Nat × Nat)) (m : Nat), p ∈ ps →
    p.1 ≤ ps.foldl (fun a d => max a d.1) m := by
  intro ps
  induction ps with
  | nil => intro m h; cases h
  | cons q t ih =>
    intro m h
    rcases List.mem_cons.mp h with h1 | h1
    · rw [h1, List.foldl_cons]
      exact le_trans (Nat.le_max_right m q.1) (le_foldl_max t _)
    · rw [List.foldl_cons]
      exact ih (max m q.1) h1

theorem mem_le_maxIdOf {p : Nat × Nat} {ps : List (Nat × Nat)} (h : p ∈ ps) :
    p.1 ≤ maxIdOf ps := mem_le_foldl_max ps 0 h

theorem getD_replicate_self {α : Type} (a : α) (n i : Nat) :
    (List.replicate n a).getD i a = a := by
  rw [List.getD_eq_getElem?_getD, List.getElem?_replicate]
  split <;> rfl

theorem infoStep_length (arr : List FPGA) (d : Nat × Nat) :
    (infoStep arr d).length = arr.length := by
  rw [infoStep]
  split
  · exact List.length_set arr _ _
  · rfl

theorem buildFpgas_eq_setFold (maxId : Nat) (ds : List (Nat × Nat))
    (hpos : ∀ p ∈ ds, 0 < p.1) :
    buildFpgas maxId ds
      = ds.foldl (fun a p => a.set (p.1 - 1) (⟨(p.1 : Int), (p.2 : Int), []⟩ : FPGA))
          (List.replicate maxId sentinelFPGA) := by
  rw [buildFpgas]
  exact foldl_congr_mem _ _ ds _ (fun x hx acc => by rw [infoStep, if_pos (hpos x hx)])

/-- C4: for any well-formed info input (a list of F-id / maxIo lines with
positive ids), loadInfo succeeds; the FPGA array's length equals the maximum
id parsed; the slot id - 1 of every id that appears holds the last parsed
(id, maxIo) pair for that id; and every slot whose id never appears holds
the empty sentinel with id -1. -/
theorem c4_loadInfo_wellformed (ps : List (Nat × Nat)) (hpos : ∀ p ∈ ps, 0 < p.1) :
    ∃ F, loadInfo (ps.length + 1) (renderInfo ps) = some F ∧
      F.length = maxIdOf ps ∧
      (∀ id io, lastBy (fun p => p.1 == id) ps = some (id, io) →
        F.getD (id - 1) sentinelFPGA = ⟨(id : Int), (io : Int), []⟩) ∧
      (∀ i, i < F.length → (∀ p ∈ ps, p.1 ≠ i + 1) →
        F.getD i sentinelFPGA = sentinelFPGA) := by
  have hloop := infoLoop_render ps (ps.length + 1) [] (by omega) hpos
  have hload : loadInfo (ps.length + 1) (renderInfo ps) = some (buildFpgas (maxIdOf ps) ps) := by
    rw [loadInfo, hloop]
    simp
  have hk : ∀ p ∈ ps, 1 ≤ p.1 ∧ p.1 ≤ (List.replicate (maxIdOf ps) sentinelFPGA).length := by
    intro p hp
    rw [List.length_replicate]
    exact ⟨hpos p hp, mem_le_maxIdOf hp⟩
  have hchar : ∀ i, (buildFpgas (maxIdOf ps) ps).getD i sentinelFPGA =
      (lastBy (fun p => p.1 == i + 1) ps).elim
        ((List.replicate (maxIdOf ps) sentinelFPGA).getD i sentinelFPGA)
        (fun p => (⟨(p.1 : Int), (p.2 : Int), []⟩ : FPGA)) := by
    intro i
    rw [buildFpgas_eq_setFold _ _ hpos]
    exact foldl_set_getD (fun p => p.1) (fun p => ⟨(p.1 : Int), (p.2 : Int), []⟩)
      sentinelFPGA ps _ i hk
  refine ⟨buildFpgas (maxIdOf ps) ps, hload, ?_, ?_, ?_⟩
  · rw [buildFpgas]
    exact foldl_inv (fun arr => arr.length = maxIdOf ps) infoStep ps
      (List.replicate (maxIdOf ps) sentinelFPGA) (List.length_replicate _ _)
      (fun arr p _ hlen => by
        show (infoStep arr p).length = maxIdOf ps
        rw [infoStep_length]
        exact hlen)
  · intro id io hlast
    have hmem := lastBy_mem hlast
    have hpos' : 0 < id := by
      have := hpos _ hmem.1
      simpa using this
    have hi : id - 1 + 1 = id := by omega
    rw [hchar (id - 1), hi, hlast]
    rfl
  · intro i _ hnone
    rw [hchar i, lastBy_eq_none (fun p hp => by
      have := hnone p hp
      simpa using this)]
    exact getD_replicate_self _ _ _

/-- Witness for C4 at a concrete two-line info file with ids out of order. -/
theorem c4_loadInfo_wellformed_witness :
    ∃ F, loadInfo 3 (renderInfo [(2, 7), (1, 5)]) = some F ∧ F.length = 2 := by
  obtain ⟨F, h1, h2, _, _⟩ := c4_loadInfo_wellformed [(2, 7), (1, 5)] (by decide)
  exact ⟨F, h1, by rw [h2]; rfl⟩

/-! Claims about Design::loadNets. -/

theorem sinkLoop_trace : ∀ (fuel : Nat) (s : List Char) (tbl : List (Nat × Node))
    (sinks tr0 : List Nat) (res : List Nat × Except NetErr (List Char × List Nat)),
    sinkLoop fuel s tbl sinks tr0 = some res →
    ∃ new, res.1 = tr0 ++ new ∧
      (∀ e, res.2 = .error e → e = NetErr.lookup ∧ ∃ id ∈ new, lookupNode tbl id = none) ∧
      (∀ x, res.2 = .ok x → ∀ id ∈ new, lookupNode tbl id ≠ none) := by
  intro fuel
  induction fuel with
  | zero =>
    intro s tbl sinks tr0 res h
    exact absurd h (by simp [sinkLoop])
  | succ n ih =>
    intro s tbl sinks tr0 res h
    simp only [sinkLoop] at h
    split at h
    · injection h with h
      subst h
      refine ⟨[], by simp, ?_, ?_⟩
      · intro e he
        simp at he
      · intro x hx id hid
        cases hid
    · split at h
      · injection h with h
        subst h
        refine ⟨[], by simp, ?_, ?_⟩
        · intro e he
          simp at he
        · intro x hx id hid
          cases hid
      · split at h
        · next hmiss =>
          injection h with h
          subst h
          refine ⟨[(parseId 'g' s).1], by simp, ?_, ?_⟩
          · intro e he
            simp only [Except.error.injEq] at he
            exact ⟨he.symm, (parseId 'g' s).1, List.mem_singleton_self _, hmiss⟩
          · intro x hx
            simp at hx
        · next nd hfound =>
          obtain ⟨new, h1, herr, hok⟩ := ih _ _ _ _ _ h
          refine ⟨(parseId 'g' s).1 :: new, by rw [h1]; simp, ?_, ?_⟩
          · intro e he
            obtain ⟨hl, id, hmem, hmiss⟩ := herr e he
            exact ⟨hl, id, List.mem_cons_of_mem _ hmem, hmiss⟩
          · intro x hx id hid
            rcases List.mem_cons.mp hid with h2 | h2
            · rw [h2, hfound]
              simp
            · exact hok x hx id h2

theorem netLoop_trace : ∀ (fuel : Nat) (s : List Char) (tbl : List (Nat × Node))
    (ctr : Nat) (nets0 : List Net) (tr0 : List Nat)
    (res : List Nat × Except NetErr (List Net)),
    netLoop fuel s tbl ctr nets0 tr0 = some res →
    ∃ new, res.1 = tr0 ++ new ∧
      (∀ e, res.2 = .error e → e = NetErr.lookup ∧ ∃ id ∈ new, lookupNode tbl id = none) ∧
      (∀ x, res.2 = .ok x → ∀ id ∈ new, lookupNode tbl id ≠ none) := by
  intro fuel
  induction fuel with
  | zero =>
    intro s tbl ctr nets0 tr0 res h
    exact absurd h (by simp [netLoop])
  | succ n ih =>
    intro s tbl ctr nets0 tr0 res h
    simp only [netLoop] at h
    split at h
    · injection h with h
      subst h
      refine ⟨[], by simp, ?_, ?_⟩
      · intro e he
        simp at he
      · intro x hx id hid
        cases hid
    · split at h
      · injection h with h
        subst h
        refine ⟨[], by simp, ?_, ?_⟩
        · intro e he
          simp at he
        · intro x hx id hid
          cases hid
      · split at h
        · next hmiss =>
          injection h with h
          subst h
          refine ⟨[(parseId 'g' (skipWhitespace s)).1], by simp, ?_, ?_⟩
          · intro e he
            simp only [Except.error.injEq] at he
            exact ⟨he.symm, _, List.mem_singleton_self _, hmiss⟩
          · intro x hx
            simp at hx
        · next nd hfound =>
          split at h
          · exact absurd h (by simp)
          · next tr2 e hsink =>
            injection h with h
            subst h
            obtain ⟨new1, hs1, herr1, _⟩ := sinkLoop_trace n _ tbl [] _ _ hsink
            refine ⟨(parseId 'g' (skipWhitespace s)).1 :: new1, ?_, ?_, ?_⟩
            · simp only at hs1
              rw [hs1]
              simp
            · intro e' he'
              simp only [Except.error.injEq] at he'
              obtain ⟨hl, id, hmem, hmiss⟩ := herr1 e (by rfl)
              exact ⟨by rw [← he']; exact hl, id, List.mem_cons_of_mem _ hmem, hmiss⟩
            · intro x hx
              simp at hx
          · next tr2 s4 sinks hsink =>
            obtain ⟨new2, h2, herr2, hok2⟩ := ih _ tbl _ _ _ _ h
            obtain ⟨new1, hs1, _, hok1⟩ := sinkLoop_trace n _ tbl [] _ _ hsink
            refine ⟨(parseId 'g' (skipWhitespace s)).1 :: (new1 ++ new2), ?_, ?_, ?_⟩
            · simp only at hs1
              rw [h2, hs1]
              simp
            · intro e he
              obtain ⟨hl, id, hmem, hmiss⟩ := herr2 e he
              exact ⟨hl, id, List.mem_cons_of_mem _ (List.mem_append_right _ hmem), hmiss⟩
            · intro x hx id hid
              rcases List.mem_cons.mp hid with h3 | h3
              · rw [h3, hfound]
                simp
              · rcases List.mem_append.mp h3 with h4 | h4
                · exact hok1 _ (by rfl) id h4
                · exact hok2 x hx id h4

/-- C6: during loadNets, a run that returns raises the lookup error exactly
when some endpoint id it parsed (at a source or sink position, collected in
the returned trace) is missing from the node table; when every parsed
endpoint id is present, no lookup error is raised. -/
theorem c6_loadNets_lookup_iff (fuel : Nat) (input : List Char) (tbl : List (Nat × Node))
    (tr : List Nat) (out : Except NetErr (List Net))
    (h : loadNets fuel input tbl = some (tr, out)) :
    out = .error .lookup ↔ ∃ id ∈ tr, lookupNode tbl id = none := by
  rw [loadNets] at h
  split at h
  · injection h with h
    rw [Prod.mk.injEq] at h
    constructor
    · intro hout
      rw [← h.2] at hout
      exact absurd hout (by simp)
    · intro ⟨id, hid, _⟩
      rw [← h.1] at hid
      cases hid
  · obtain ⟨new, h1, herr, hok⟩ := netLoop_trace fuel input tbl 1 [] [] (tr, out) h
    simp only [List.nil_append] at h1
    constructor
    · intro hout
      obtain ⟨_, id, hmem, hmiss⟩ := herr _ hout
      exact ⟨id, by rw [h1]; exact hmem, hmiss⟩
    · intro ⟨id, hid, hmiss⟩
      cases hout : out with
      | ok x => exact absurd hmiss (hok x hout id (by rw [← h1]; exact hid))
      | error e =>
        obtain ⟨hl, _⟩ := herr e hout
        rw [hl]

/-- Witness for C6: the run on "g9" with a node table containing only node 1
raises the lookup error, and indeed the traced endpoint 9 is missing. -/
theorem c6_loadNets_lookup_iff_witness :
    ∃ id ∈ [9], lookupNode [(1, (⟨1, none⟩ : Node))] id = none := by
  exact (c6_loadNets_lookup_iff 3 (String.data "g9") [(1, ⟨1, none⟩)] [9]
    (.error .lookup) rfl).mp rfl

theorem netLoop_ids : ∀ (fuel : Nat) (s : List Char) (tbl : List (Nat × Node)) (ctr : Nat)
    (nets0 : List Net) (tr0 tr : List Nat) (nets : List Net),
    netLoop fuel s tbl ctr nets0 tr0 = some (tr, .ok nets) →
    ∃ extra : List Net, nets = nets0 ++ extra ∧
      extra.map Net.id = List.range' ctr extra.length := by
  intro fuel
  induction fuel with
  | zero =>
    intro s tbl ctr nets0 tr0 tr nets h
    exact absurd h (by simp [netLoop])
  | succ n ih =>
    intro s tbl ctr nets0 tr0 tr nets h
    simp only [netLoop] at h
    split at h
    · injection h with h
      rw [Prod.mk.injEq] at h
      obtain ⟨-, h2⟩ := h
      injection h2 with h2
      exact ⟨[], by rw [← h2]; simp, by simp⟩
    · split at h
      · injection h with h
        rw [Prod.mk.injEq] at h
        obtain ⟨-, h2⟩ := h
        injection h2 with h2
        exact ⟨[], by rw [← h2]; simp, by simp⟩
      · split at h
        · injection h with h
          rw [Prod.mk.injEq] at h
          exact absurd h.2 (by simp)
        · next nd hfound =>
          split at h
          · exact absurd h (by simp)
          · injection h with h
            rw [Prod.mk.injEq] at h
            exact absurd h.2 (by simp)
          · next tr2 s4 sinks hsink =>
            obtain ⟨extra, he, hm⟩ := ih _ tbl _ _ _ _ _ h
            refine ⟨(⟨ctr, some (parseId 'g' (skipWhitespace s)).1, sinks,
              (parseInt (parseId 'g' (skipWhitespace s)).2).1⟩ : Net) :: extra, ?_, ?_⟩
            · rw [he]
              simp
            · simp only [List.map_cons, hm, List.length_cons]
              rw [List.range'_succ]

/-- C1 amended: whenever loadNets returns normally, the ids of the produced
nets are exactly 1..K in production order, K being the number of produced
nets (one per outer-loop iteration; an iteration is not one input line, see
the counterexample). -/
theorem c1_loadNets_ids (fuel : Nat) (input : List Char) (tbl : List (Nat × Node))
    (tr : List Nat) (nets : List Net)
    (h : loadNets fuel input tbl = some (tr, .ok nets)) :
    nets.map Net.id = List.range' 1 nets.length := by
  rw [loadNets] at h
  split at h
  · injection h with h
    rw [Prod.mk.injEq] at h
    exact absurd h.2 (by simp)
  · obtain ⟨extra, he, hm⟩ := netLoop_ids fuel input tbl 1 [] [] tr nets h
    rw [he]
    simpa using hm

/-- Witness for C1: a one-line run produces the single net id 1. -/
theorem c1_loadNets_ids_witness :
    ([⟨1, some 1, [2], 1⟩] : List Net).map Net.id
      = List.range' 1 ([⟨1, some 1, [2], 1⟩] : List Net).length :=
  c1_loadNets_ids 5 (String.data "g1 1 g2") [(1, ⟨1, none⟩), (2, ⟨2, none⟩)] [1, 2]
    [⟨1, some 1, [2], 1⟩] rfl

/-- The two-line net file of the C1/C3 counterexamples: every line is the
spec's `g<src> <weight> g<sink>` shape and every mentioned id is known. -/
def ceNetInput : List Char := String.data "g1 1 g2\ng3 1 g4"

/-- Node table for the counterexample input: nodes 1..4 are all known. -/
def ceNetTbl : List (Nat × Node) :=
  [(1, ⟨1, none⟩), (2, ⟨2, none⟩), (3, ⟨3, none⟩), (4, ⟨4, none⟩)]

/-- What the code actually produces on ceNetInput. -/
def ceNetResult : List Net := [⟨1, some 1, [2, 3], 1⟩, ⟨2, some 1, [4], 0⟩]

/-- C1 counterexample: on the two-line net file "g1 1 g2" / "g3 1 g4" the
load completes, but net 1's sink run does not end at its line's end: the
lookahead skips the newline and absorbs g3 (line 2's source) as a third
token of net 1, so the nets' sink lists are not the per-line ones ([2] and
[4]) and net 2's source is node 1 (re-parsed from line 2's weight token),
not g3. -/
theorem c1_loadNets_counterexample :
    loadNets 10 ceNetInput ceNetTbl = some ([1, 2, 3, 1, 4], .ok ceNetResult) ∧
    ceNetResult.map Net.sinks ≠ [[2], [4]] ∧
    ceNetResult.map Net.source ≠ [some 1, some 3] :=
  ⟨rfl, by decide, by decide⟩

/-- C3 counterexample: on the same well-formed two-line net file, in which
every weight token is 1, the second produced net has weight 0 (its "source"
was re-parsed from the weight token, so the weight position fell on the sink
marker and parseInt returned 0): not every net's weight equals 1. -/
theorem c3_loadNets_weight_counterexample :
    loadNets 10 ceNetInput ceNetTbl = some ([1, 2, 3, 1, 4], .ok ceNetResult) ∧
    ∃ net ∈ ceNetResult, net.weight ≠ 1 :=
  ⟨rfl, ⟨⟨2, some 1, [4], 0⟩, by decide, by decide⟩⟩

/-- C3 amended: a net's weight is the integer parsed right after its source
token, not the constant 1: for every w, the single-line net file "g1 w"
(node 1 known) loads as one net of weight w. -/
theorem c3_loadNets_weight_is_parsed (w : Nat) :
    loadNets 3 ('g' :: ('1' :: (' ' :: renderNat w))) [(1, ⟨1, none⟩)]
      = some ([1], .ok [⟨1, some 1, [], w⟩]) := by
  have hr1 : renderNat 1 = ['1'] := by rw [renderNat]; rfl
  have hshape : 'g' :: ('1' :: (' ' :: renderNat w))
      = 'g' :: (renderNat 1 ++ (' ' :: renderNat w)) := by rw [hr1]; rfl
  have h2 : parseId 'g' ('g' :: ('1' :: (' ' :: renderNat w))) = (1, ' ' :: renderNat w) := by
    rw [hshape]
    exact parseId_render 'g' (by decide) 1 _ (by rw [curChar_cons]; decide)
  have h3 : parseInt (' ' :: renderNat w) = (w, []) := by
    rw [parseInt_cons_ws (by decide)]
    have := @parseInt_render [] w (by decide)
    rw [List.append_nil] at this
    exact this
  have hsw : skipWhitespace ('g' :: ('1' :: (' ' :: renderNat w)))
      = 'g' :: ('1' :: (' ' :: renderNat w)) :=
    skipWhitespace_no_ws (by rw [curChar_cons]; decide)
  show netLoop 3 ('g' :: ('1' :: (' ' :: renderNat w))) [(1, ⟨1, none⟩)] 1 [] []
      = some ([1], .ok [⟨1, some 1, [], w⟩])
  simp only [netLoop, isEOF_cons, Bool.false_eq_true, if_false, hsw, h2, h3]
  have hfound : lookupNode [(1, (⟨1, none⟩ : Node))] 1 = some ⟨1, none⟩ := rfl
  rw [hfound]
  simp only [sinkLoop, isEOF_nil, if_true]
  simp

/-! Claim C5: Design::loadFpgaMapping on a well-formed mapping file. -/

/-- The flattened sequence of (fpga id, node id) assignments a mapping file
performs, in file order. -/
def assignSeq (lines : List (Nat × List Nat)) : List (Nat × Nat) :=
  (lines.map (fun l => l.2.map (fun n => (l.1, n)))).flatten

/-- One assignment, at slot id - 1. -/
def applyAssign (st : List FPGA × List (Nat × Node)) (a : Nat × Nat) :
    List FPGA × List (Nat × Node) :=
  mapAssign st.1 st.2 (a.1 - 1) a.2

/-- All assignments of a mapping file, in order. -/
def applyAssigns (seq : List (Nat × Nat)) (st : List FPGA × List (Nat × Node)) :
    List FPGA × List (Nat × Node) :=
  seq.foldl applyAssign st

/-- The node loop of one line: assignments of all its node ids at one slot. -/
def applyNodes (slot : Nat) (ns : List Nat) (st : List FPGA × List (Nat × Node)) :
    List FPGA × List (Nat × Node) :=
  ns.foldl (fun st n => mapAssign st.1 st.2 slot n) st

theorem head_not_digit_of_peek {rest : List Char}
    (h : peekNextNonWhitespaceChar rest = 'F' ∨ peekNextNonWhitespaceChar rest = nulChar) :
    isDigitC (curChar rest) = false := by
  cases hd : isDigitC (curChar rest) with
  | false => rfl
  | true =>
    have hw : wsChar (curChar rest) = false := wsChar_of_digit hd
    have hs : skipWhitespace rest = rest := skipWhitespace_no_ws hw
    rw [peekNextNonWhitespaceChar, hs] at h
    rcases h with h | h <;> rw [h] at hd <;> exact absurd hd (by decide)

theorem mapInner_render : ∀ (ns : List Nat) (fuel : Nat) (slot : Nat)
    (fpgas : List FPGA) (nodes : List (Nat × Node)) (rest : List Char),
    ns.length < fuel →
    (peekNextNonWhitespaceChar rest = 'F' ∨ peekNextNonWhitespaceChar rest = nulChar) →
    mapInner fuel (renderNodes ns ++ rest) slot fpgas nodes
      = some (rest, applyNodes slot ns (fpgas, nodes)) := by
  intro ns
  induction ns with
  | nil =>
    intro fuel slot fpgas nodes rest hf hrest
    cases fuel with
    | zero => omega
    | succ n =>
      show mapInner (n + 1) rest slot fpgas nodes = some (rest, (fpgas, nodes))
      cases rest with
      | nil => rfl
      | cons c t =>
        simp only [mapInner, isEOF_cons, Bool.false_eq_true, if_false]
        rw [if_pos hrest]
  | cons m ms ih =>
    intro fuel slot fpgas nodes rest hf hrest
    cases fuel with
    | zero => omega
    | succ n =>
      have hshape : renderNodes (m :: ms) ++ rest
          = ' ' :: ('g' :: (renderNat m ++ (renderNodes ms ++ rest))) := by
        show ' ' :: ('g' :: (renderNat m ++ renderNodes ms)) ++ rest = _
        simp
      have hpeek : peekNextNonWhitespaceChar (renderNodes (m :: ms) ++ rest) = 'g' := by
        rw [hshape, peek_cons_ws (by decide), peekNextNonWhitespaceChar,
          skipWhitespace_no_ws (by rw [curChar_cons]; decide), curChar_cons]
      have hrest2 : isDigitC (curChar (renderNodes ms ++ rest)) = false := by
        cases ms with
        | nil => exact head_not_digit_of_peek hrest
        | cons m2 ms2 => rw [show curChar (renderNodes (m2 :: ms2) ++ rest) = ' ' from rfl]; decide
      have hparse : parseId 'g' (renderNodes (m :: ms) ++ rest)
          = (m, renderNodes ms ++ rest) := by
        rw [hshape, parseId_cons_ws (by decide)]
        exact parseId_render 'g' (by decide) m _ hrest2
      have hne : isEOF (renderNodes (m :: ms) ++ rest) = false := by rw [hshape]; rfl
      simp only [mapInner, hne, Bool.false_eq_true, if_false, hpeek]
      rw [if_neg (by decide), hparse]
      exact ih n slot _ _ rest (by simpa using hf) hrest

theorem mapInner_skipWhitespace (fuel : Nat) (s : List Char) (slot : Nat)
    (fpgas : List FPGA) (nodes : List (Nat × Node))
    (hproceed : peekNextNonWhitespaceChar s ≠ 'F' ∧ peekNextNonWhitespaceChar s ≠ nulChar) :
    mapInner fuel (skipWhitespace s) slot fpgas nodes = mapInner fuel s slot fpgas nodes := by
  cases fuel with
  | zero => rfl
  | succ n =>
    cases s with
    | nil => rfl
    | cons c0 t0 =>
      cases hs : skipWhitespace (c0 :: t0) with
      | nil =>
        exact absurd (by rw [peekNextNonWhitespaceChar, hs]; rfl) hproceed.2
      | cons c t =>
        have hid := skipWhitespace_idem (c0 :: t0)
        rw [hs] at hid
        have hpeekeq : peekNextNonWhitespaceChar (c :: t)
            = peekNextNonWhitespaceChar (c0 :: t0) := by
          rw [peekNextNonWhitespaceChar, hid, ← hs]
          rfl
        have hpid : parseId 'g' (c :: t) = parseId 'g' (c0 :: t0) := by
          rw [parseId, hid, ← hs]
          rfl
        have hcond : ¬(peekNextNonWhitespaceChar (c0 :: t0) = 'F'
            ∨ peekNextNonWhitespaceChar (c0 :: t0) = nulChar) := by
          intro hor
          rcases hor with h | h
          · exact hproceed.1 h
          · exact hproceed.2 h
        simp only [mapInner, isEOF_cons, Bool.false_eq_true, if_false, hpeekeq, hpid,
          if_neg hcond]

theorem mapOuter_skip (fuel : Nat) (s : List Char) (fpgas : List FPGA)
    (nodes : List (Nat × Node)) :
    mapOuter fuel s fpgas nodes = mapOuter fuel (skipWhitespace s) fpgas nodes := by
  cases fuel with
  | zero => rfl
  | succ n =>
    have hid := skipWhitespace_idem s
    cases s with
    | nil => rfl
    | cons c0 t0 =>
      cases hs : skipWhitespace (c0 :: t0) with
      | nil =>
        simp only [mapOuter, isEOF_cons, isEOF_nil, hs, Bool.false_eq_true, if_false, if_true]
      | cons c t =>
        rw [hs] at hid
        simp only [mapOuter, isEOF_cons, Bool.false_eq_true, if_false, hs, hid]

theorem skipWhitespace_renderMapping (lines : List (Nat × List Nat)) :
    skipWhitespace (renderMapping lines) = renderMapping lines := by
  cases lines with
  | nil => rfl
  | cons l ls =>
    have hcur : curChar (renderMapping (l :: ls)) = 'F' := rfl
    exact skipWhitespace_no_ws (by rw [hcur]; decide)

theorem mapAssign_fpgas_length (fpgas : List FPGA) (nodes : List (Nat × Node))
    (slot nid : Nat) : (mapAssign fpgas nodes slot nid).1.length = fpgas.length :=
  List.length_set fpgas _ _

theorem applyNodes_fpgas_length (slot : Nat) (ns : List Nat)
    (st : List FPGA × List (Nat × Node)) :
    (applyNodes slot ns st).1.length = st.1.length := by
  rw [applyNodes]
  exact foldl_inv (fun st' => st'.1.length = st.1.length) _ ns st rfl
    (fun st' n _ hl => by
      show (mapAssign st'.1 st'.2 slot n).1.length = st.1.length
      rw [mapAssign_fpgas_length]
      exact hl)

/-- Fuel bound sufficient to parse a rendered mapping file. -/
def mapFuel : List (Nat × List Nat) → Nat
  | [] => 1
  | l :: ls => 1 + l.2.length + mapFuel ls

theorem mapFuel_pos (lines : List (Nat × List Nat)) : 1 ≤ mapFuel lines := by
  cases lines with
  | nil => exact Nat.le_refl 1
  | cons l ls => show 1 ≤ 1 + l.2.length + mapFuel ls; omega

theorem applyAssigns_append (s1 s2 : List (Nat × Nat)) (st : List FPGA × List (Nat × Node)) :
    applyAssigns (s1 ++ s2) st = applyAssigns s2 (applyAssigns s1 st) := by
  rw [applyAssigns, applyAssigns, applyAssigns, List.foldl_append]

theorem applyAssigns_line (f : Nat) (ns : List Nat) (st : List FPGA × List (Nat × Node)) :
    applyAssigns (ns.map (fun n => (f, n))) st = applyNodes (f - 1) ns st := by
  rw [applyAssigns, applyNodes, List.foldl_map]
  rfl

theorem peek_renderMapping_or (ls : List (Nat × List Nat)) :
    peekNextNonWhitespaceChar ('\n' :: renderMapping ls) = 'F'
      ∨ peekNextNonWhitespaceChar ('\n' :: renderMapping ls) = nulChar := by
  rw [peek_cons_ws (by decide), peekNextNonWhitespaceChar, skipWhitespace_renderMapping]
  cases ls with
  | nil => right; rfl
  | cons l2 ls2 => left; rfl

theorem mapOuter_render : ∀ (lines : List (Nat × List Nat)) (fuel : Nat)
    (fpgas : List FPGA) (nodes : List (Nat × Node)),
    mapFuel lines ≤ fuel →
    (∀ l ∈ lines, 1 ≤ l.1 ∧ l.1 ≤ fpgas.length) →
    mapOuter fuel (renderMapping lines) fpgas nodes
      = some (applyAssigns (assignSeq lines) (fpgas, nodes)) := by
  intro lines
  induction lines with
  | nil =>
    intro fuel fpgas nodes hf _
    cases fuel with
    | zero => exact absurd hf (by simp [mapFuel])
    | succ n => rfl
  | cons l ls ih =>
    intro fuel fpgas nodes hf hrange
    obtain ⟨f, ns⟩ := l
    cases fuel with
    | zero => exact absurd hf (by have := mapFuel_pos ((f, ns) :: ls); omega)
    | succ n =>
      have hfn : mapFuel ((f, ns) :: ls) = 1 + ns.length + mapFuel ls := rfl
      have hposls := mapFuel_pos ls
      have hr : renderMapping ((f, ns) :: ls)
          = 'F' :: (renderNat f ++ (':' :: (renderNodes ns ++ '\n' :: renderMapping ls))) := rfl
      have hrange0 := hrange (f, ns) (List.mem_cons_self _ _)
      have h2 : parseId 'F' (renderMapping ((f, ns) :: ls))
          = (f, ':' :: (renderNodes ns ++ '\n' :: renderMapping ls)) := by
        rw [hr]
        exact parseId_render 'F' (by decide) f _ (by rw [curChar_cons]; decide)
      have h3 : skipChar ':' (':' :: (renderNodes ns ++ '\n' :: renderMapping ls))
          = skipWhitespace (renderNodes ns ++ '\n' :: renderMapping ls) :=
        skipChar_render_match ':' _ (by decide)
      have hsw : skipWhitespace (renderMapping ((f, ns) :: ls))
          = renderMapping ((f, ns) :: ls) := skipWhitespace_renderMapping _
      have hEOF : isEOF (renderMapping ((f, ns) :: ls)) = false := by rw [hr]; rfl
      have hpeekrest := peek_renderMapping_or ls
      -- the node loop of the line ends at a position that whitespace-skips
      -- to the remaining lines
      have hinner : ∃ s4, mapInner n (skipWhitespace (renderNodes ns ++ '\n' :: renderMapping ls))
          (f - 1) fpgas nodes = some (s4, applyNodes (f - 1) ns (fpgas, nodes))
          ∧ skipWhitespace s4 = renderMapping ls := by
        cases ns with
        | nil =>
          refine ⟨renderMapping ls, ?_, skipWhitespace_renderMapping ls⟩
          show mapInner n (skipWhitespace ('\n' :: renderMapping ls)) (f - 1) fpgas nodes = _
          rw [skipWhitespace_cons_ws _ (by decide), skipWhitespace_renderMapping]
          have hmi := mapInner_render [] n (f - 1) fpgas nodes (renderMapping ls)
            (by rw [hfn] at hf; omega) (by
              rw [peekNextNonWhitespaceChar, skipWhitespace_renderMapping]
              cases ls with
              | nil => right; rfl
              | cons l2 ls2 => left; rfl)
          exact hmi
        | cons m ms =>
          refine ⟨'\n' :: renderMapping ls, ?_, by
            rw [skipWhitespace_cons_ws _ (by decide)]
            exact skipWhitespace_renderMapping ls⟩
          rw [mapInner_skipWhitespace]
          · exact mapInner_render (m :: ms) n (f - 1) fpgas nodes ('\n' :: renderMapping ls)
              (by rw [hfn] at hf; omega) hpeekrest
          · have hpk : peekNextNonWhitespaceChar (renderNodes (m :: ms)
                ++ '\n' :: renderMapping ls) = 'g' := by
              rw [show renderNodes (m :: ms) ++ '\n' :: renderMapping ls
                  = ' ' :: ('g' :: (renderNat m ++ (renderNodes ms ++ '\n' :: renderMapping ls)))
                  from by show ' ' :: ('g' :: (renderNat m ++ renderNodes ms)) ++ _ = _; simp,
                peek_cons_ws (by decide), peekNextNonWhitespaceChar,
                skipWhitespace_no_ws (by rw [curChar_cons]; decide), curChar_cons]
            rw [hpk]
            exact ⟨by decide, by decide⟩
      obtain ⟨s4, hmi, hs4⟩ := hinner
      have hcond : ¬(f = 0 ∨ fpgas.length < f) := by omega
      simp only [mapOuter, hEOF, Bool.false_eq_true, if_false, hsw, h2, h3, if_neg hcond, hmi]
      rw [mapOuter_skip, hs4,
        ih n _ _ (by rw [hfn] at hf; omega) (by
          intro l2 hl2
          have := hrange l2 (List.mem_cons_of_mem _ hl2)
          rwa [← applyNodes_fpgas_length (f - 1) ns (fpgas, nodes)] at this)]
      rw [show assignSeq ((f, ns) :: ls) = ns.map (fun n => (f, n)) ++ assignSeq ls
          from by rw [assignSeq, List.map_cons, List.flatten_cons, assignSeq],
        applyAssigns_append, applyAssigns_line]

theorem lookup_append {β : Type} (k : Nat) (l1 l2 : List (Nat × β)) :
    List.lookup k (l1 ++ l2)
      = (List.lookup k l1).orElse (fun _ => List.lookup k l2) := by
  induction l1 with
  | nil => simp [List.lookup]
  | cons p t ih =>
    obtain ⟨a, b⟩ := p
    by_cases hk : k == a
    · simp [List.lookup, hk]
    · rw [Bool.not_eq_true] at hk
      simp [List.lookup, hk, ih]

theorem lookup_setNodeFpga_self (ns : List (Nat × Node)) (nid slot : Nat) :
    List.lookup nid (setNodeFpga ns nid slot)
      = (List.lookup nid ns).map (fun nd => (⟨nd.id, some slot⟩ : Node)) := by
  induction ns with
  | nil => rfl
  | cons p t ih =>
    obtain ⟨k, nd⟩ := p
    by_cases hk : k = nid
    · subst hk
      simp [setNodeFpga, List.lookup]
    · have hb : (nid == k) = false := beq_eq_false_iff_ne.mpr (Ne.symm hk)
      simp [setNodeFpga, hk, List.lookup, hb, ih]

theorem lookup_setNodeFpga_ne (ns : List (Nat × Node)) (nid slot k : Nat) (h : k ≠ nid) :
    List.lookup k (setNodeFpga ns nid slot) = List.lookup k ns := by
  induction ns with
  | nil => rfl
  | cons p t ih =>
    obtain ⟨k0, nd⟩ := p
    by_cases hk : k0 = nid
    · subst hk
      have hb : (k == k0) = false := beq_eq_false_iff_ne.mpr h
      simp [setNodeFpga, List.lookup, hb]
    · simp [setNodeFpga, hk, List.lookup, ih]

theorem lookup_mapAssign_self (fpgas : List FPGA) (nodes : List (Nat × Node))
    (slot nid : Nat) :
    ∃ nd, List.lookup nid (mapAssign fpgas nodes slot nid).2 = some nd
      ∧ nd.fpga = some slot := by
  rw [mapAssign]
  cases hl : lookupNode nodes nid with
  | some nd0 =>
    refine ⟨⟨nd0.id, some slot⟩, ?_, rfl⟩
    simp only [hl, Option.isNone_some, Bool.false_eq_true, if_false]
    rw [lookup_setNodeFpga_self]
    rw [lookupNode] at hl
    rw [hl]
    rfl
  | none =>
    refine ⟨⟨(nid : Int), some slot⟩, ?_, rfl⟩
    simp only [hl, Option.isNone_none, if_true]
    rw [lookup_setNodeFpga_self, lookup_append]
    rw [lookupNode] at hl
    rw [hl]
    simp [List.lookup]

theorem lookup_mapAssign_ne (fpgas : List FPGA) (nodes : List (Nat × Node))
    (slot nid k : Nat) (h : k ≠ nid) :
    List.lookup k (mapAssign fpgas nodes slot nid).2 = List.lookup k nodes := by
  rw [mapAssign]
  have hb : (k == nid) = false := beq_eq_false_iff_ne.mpr h
  cases hl : lookupNode nodes nid with
  | some nd0 =>
    simp only [hl, Option.isNone_some, Bool.false_eq_true, if_false]
    exact lookup_setNodeFpga_ne _ _ _ _ h
  | none =>
    simp only [hl, Option.isNone_none, if_true]
    rw [lookup_setNodeFpga_ne _ _ _ _ h, lookup_append]
    cases hk : List.lookup k nodes with
    | some nd => rfl
    | none => simp [List.lookup, hb]

theorem lastBy_none_elim {β : Type} {p : β → Bool} {l : List β} (h : lastBy p l = none) :
    ∀ x ∈ l, p x = false := by
  rw [lastBy, List.find?_eq_none] at h
  intro x hx
  have := h x (List.mem_reverse.mpr hx)
  simpa using this

theorem applyAssigns_lookup_untouched : ∀ (seq : List (Nat × Nat))
    (st : List FPGA × List (Nat × Node)) (nid : Nat),
    (∀ q ∈ seq, q.2 ≠ nid) →
    List.lookup nid (applyAssigns seq st).2 = List.lookup nid st.2 := by
  intro seq
  induction seq with
  | nil => intro st nid _; rfl
  | cons q t ih =>
    intro st nid h
    rw [applyAssigns, List.foldl_cons, ← applyAssigns,
      ih _ nid (fun q' hq' => h q' (List.mem_cons_of_mem q hq'))]
    exact lookup_mapAssign_ne st.1 st.2 (q.1 - 1) q.2 nid
      (fun he => h q (List.mem_cons_self q t) he.symm)

theorem applyAssigns_lookup_last : ∀ (seq : List (Nat × Nat))
    (st : List FPGA × List (Nat × Node)) (nid : Nat) (a0 : Nat × Nat),
    lastBy (fun q => q.2 == nid) seq = some a0 →
    ∃ nd, List.lookup nid (applyAssigns seq st).2 = some nd
      ∧ nd.fpga = some (a0.1 - 1) := by
  intro seq
  induction seq with
  | nil =>
    intro st nid a0 h
    rw [lastBy_nil] at h
    exact absurd h (by simp)
  | cons q t ih =>
    intro st nid a0 h
    rw [lastBy_cons] at h
    rw [applyAssigns, List.foldl_cons, ← applyAssigns]
    cases hl : lastBy (fun q => q.2 == nid) t with
    | some b =>
      rw [hl] at h
      injection h with h
      rw [← h]
      exact ih (applyAssign st q) nid b hl
    | none =>
      rw [hl] at h
      by_cases hq : (q.2 == nid) = true
      · rw [if_pos hq] at h
        injection h with h
        have hnid : q.2 = nid := by simpa using hq
        rw [applyAssigns_lookup_untouched t _ nid
          (fun q' hq' => by simpa using lastBy_none_elim hl q' hq')]
        rw [← h, ← hnid]
        exact lookup_mapAssign_self st.1 st.2 (q.1 - 1) q.2
      · rw [if_neg hq] at h
        exact absurd h (by simp)

theorem mapAssign_nodes_mem_preserved (fpgas : List FPGA) (nodes : List (Nat × Node))
    (slot nid j : Nat) (x : Nat) (h : x ∈ (fpgas.getD j sentinelFPGA).nodes) :
    x ∈ ((mapAssign fpgas nodes slot nid).1.getD j sentinelFPGA).nodes := by
  show x ∈ ((fpgas.set slot _).getD j sentinelFPGA).nodes
  by_cases hj : slot = j
  · subst hj
    by_cases hlt : slot < fpgas.length
    · rw [getD_set_same _ _ hlt]
      exact List.mem_append_left _ h
    · rw [List.set_eq_of_length_le (by omega)]
      exact h
  · rw [getD_set_ne _ _ hj]
    exact h

theorem mapAssign_nodes_mem_self (fpgas : List FPGA) (nodes : List (Nat × Node))
    (slot nid : Nat) (h : slot < fpgas.length) :
    nid ∈ ((mapAssign fpgas nodes slot nid).1.getD slot sentinelFPGA).nodes := by
  show nid ∈ ((fpgas.set slot _).getD slot sentinelFPGA).nodes
  rw [getD_set_same _ _ h]
  exact List.mem_append_right _ (List.mem_singleton_self nid)

theorem applyAssigns_nodes_mem_preserved (seq : List (Nat × Nat))
    (st : List FPGA × List (Nat × Node)) (j x : Nat)
    (h : x ∈ (st.1.getD j sentinelFPGA).nodes) :
    x ∈ ((applyAssigns seq st).1.getD j sentinelFPGA).nodes := by
  rw [applyAssigns]
  exact foldl_inv (fun st' => x ∈ (st'.1.getD j sentinelFPGA).nodes) applyAssign seq st h
    (fun st' q _ hx => mapAssign_nodes_mem_preserved st'.1 st'.2 (q.1 - 1) q.2 j x hx)

theorem applyAssigns_fpga_mem : ∀ (seq : List (Nat × Nat))
    (st : List FPGA × List (Nat × Node)) (a : Nat × Nat),
    a ∈ seq → a.1 - 1 < st.1.length →
    a.2 ∈ ((applyAssigns seq st).1.getD (a.1 - 1) sentinelFPGA).nodes := by
  intro seq
  induction seq with
  | nil =>
    intro st a h _
    cases h
  | cons q t ih =>
    intro st a hmem hlt
    rw [applyAssigns, List.foldl_cons, ← applyAssigns]
    rcases List.mem_cons.mp hmem with h1 | h1
    · subst h1
      exact applyAssigns_nodes_mem_preserved t _ _ _
        (mapAssign_nodes_mem_self st.1 st.2 (a.1 - 1) a.2 hlt)
    · exact ih (applyAssign st q) a h1 (by
        show a.1 - 1 < (mapAssign st.1 st.2 (q.1 - 1) q.2).1.length
        rw [mapAssign_fpgas_length]
        exact hlt)

theorem mem_assignSeq {lines : List (Nat × List Nat)} {a n : Nat}
    (h : (a, n) ∈ assignSeq lines) : ∃ l ∈ lines, l.1 = a ∧ n ∈ l.2 := by
  rw [assignSeq, List.mem_flatten] at h
  obtain ⟨sub, hsub, hmem⟩ := h
  rw [List.mem_map] at hsub
  obtain ⟨l, hl, rfl⟩ := hsub
  rw [List.mem_map] at hmem
  obtain ⟨m, hm, heq⟩ := hmem
  rw [Prod.mk.injEq] at heq
  exact ⟨l, hl, heq.1, by rw [heq.2] at hm; exact hm⟩

/-- C5: on a well-formed mapping file whose FPGA ids are all in range, if a
node id n appears under line F a and its last occurrence is under line F b,
then after loadFpgaMapping the node's FPGA reference is the slot of F b
(last assignment wins), while n is kept, without deduplication, in the node
lists of both F a and F b. -/
theorem c5_mapping_last_write_wins (lines : List (Nat × List Nat)) (fpgas0 : List FPGA)
    (nodes0 : List (Nat × Node)) (n a b : Nat)
    (hrange : ∀ l ∈ lines, 1 ≤ l.1 ∧ l.1 ≤ fpgas0.length)
    (hmem : (a, n) ∈ assignSeq lines)
    (hlast : lastBy (fun q => q.2 == n) (assignSeq lines) = some (b, n)) :
    ∃ fpgas1 nodes1,
      loadFpgaMapping (mapFuel lines) (renderMapping lines) fpgas0 nodes0
        = some (.ok (fpgas1, nodes1)) ∧
      (∃ nd, lookupNode nodes1 n = some nd ∧ nd.fpga = some (b - 1)) ∧
      n ∈ (fpgas1.getD (a - 1) sentinelFPGA).nodes ∧
      n ∈ (fpgas1.getD (b - 1) sentinelFPGA).nodes := by
  obtain ⟨la, hla, hla1, _⟩ := mem_assignSeq hmem
  have hrga := hrange la hla
  have halt : a - 1 < fpgas0.length := by omega
  have hbmem : (b, n) ∈ assignSeq lines := (lastBy_mem hlast).1
  obtain ⟨lb, hlb, hlb1, _⟩ := mem_assignSeq hbmem
  have hrgb := hrange lb hlb
  have hblt : b - 1 < fpgas0.length := by omega
  have hfne : fpgas0.isEmpty = false := by
    cases fpgas0 with
    | nil => simp at halt
    | cons f fs => rfl
  refine ⟨(applyAssigns (assignSeq lines) (fpgas0, nodes0)).1,
    (applyAssigns (assignSeq lines) (fpgas0, nodes0)).2, ?_, ?_, ?_, ?_⟩
  · rw [loadFpgaMapping, hfne]
    simp only [Bool.false_eq_true, if_false]
    rw [mapOuter_render lines (mapFuel lines) fpgas0 nodes0 (Nat.le_refl _) hrange]
    rfl
  · exact applyAssigns_lookup_last (assignSeq lines) (fpgas0, nodes0) n (b, n) hlast
  · exact applyAssigns_fpga_mem (assignSeq lines) (fpgas0, nodes0) (a, n) hmem halt
  · exact applyAssigns_fpga_mem (assignSeq lines) (fpgas0, nodes0) (b, n) hbmem hblt

/-- Witness for C5: the spec scenario where g5 appears under both F1 and F2;
its FPGA reference is slot 1 (F2) and it is listed under both FPGAs. -/
theorem c5_mapping_last_write_wins_witness :
    ∃ fpgas1 nodes1,
      loadFpgaMapping (mapFuel [(1, [5]), (2, [5])]) (renderMapping [(1, [5]), (2, [5])])
        [⟨1, 8, []⟩, ⟨2, 9, []⟩] [] = some (.ok (fpgas1, nodes1)) ∧
      (∃ nd, lookupNode nodes1 5 = some nd ∧ nd.fpga = some (2 - 1)) ∧
      5 ∈ (fpgas1.getD (1 - 1) sentinelFPGA).nodes ∧
      5 ∈ (fpgas1.getD (2 - 1) sentinelFPGA).nodes :=
  c5_mapping_last_write_wins [(1, [5]), (2, [5])] [⟨1, 8, []⟩, ⟨2, 9, []⟩] [] 5 1 2
    (by decide) (by decide) (by decide)

/-! Claim C9: Design::loadTopo. -/

/-- The row writes a well-formed topology file performs: each in-range line
overwrites row id - 1 with its values. -/
def topoApply (lines : List (Nat × List Nat)) (m : List (List Nat)) : List (List Nat) :=
  lines.foldl (fun m l => m.set (l.1 - 1) l.2) m

theorem readRow_length : ∀ (k : Nat) (s : List Char), (readRow k s).1.length = k := by
  intro k
  induction k with
  | zero => intro s; rfl
  | succ n ih =>
    intro s
    show ((parseInt s).1 :: (readRow n _).1).length = n + 1
    rw [List.length_cons, ih]

theorem curChar_renderRow_digit (v : Nat) (vs : List Nat) (rest : List Char) :
    isDigitC (curChar (renderRow (v :: vs) ++ rest)) = true := by
  cases vs with
  | nil => exact curChar_append_digit v rest
  | cons w ws =>
    rw [show renderRow (v :: w :: ws) ++ rest
        = renderNat v ++ (',' :: renderRow (w :: ws) ++ rest) from by
      show (renderNat v ++ ',' :: renderRow (w :: ws)) ++ rest = _
      simp]
    exact curChar_append_digit v _

theorem readRow_render : ∀ (vs : List Nat) (rest : List Char),
    isDigitC (curChar rest) = false →
    readRow vs.length (renderRow vs ++ rest) = (vs, rest) := by
  intro vs
  induction vs with
  | nil =>
    intro rest _
    show ([], renderRow [] ++ rest) = (([] : List Nat), rest)
    rw [show renderRow [] = ([] : List Char) from rfl, List.nil_append]
  | cons v vs ih =>
    intro rest hrest
    cases vs with
    | nil =>
      show ((parseInt (renderRow [v] ++ rest)).1 :: (readRow 0 _).1, _) = _
      rw [show renderRow [v] = renderNat v from rfl, parseInt_render v hrest]
      simp [readRow]
    | cons w ws =>
      have hshape : renderRow (v :: w :: ws) ++ rest
          = renderNat v ++ (',' :: (renderRow (w :: ws) ++ rest)) := by
        show (renderNat v ++ ',' :: renderRow (w :: ws)) ++ rest = _
        simp
      have h1 : parseInt (renderRow (v :: w :: ws) ++ rest)
          = (v, ',' :: (renderRow (w :: ws) ++ rest)) := by
        rw [hshape]
        exact parseInt_render v (by rw [curChar_cons]; decide)
      have h2 : skipChar ',' (',' :: (renderRow (w :: ws) ++ rest))
          = renderRow (w :: ws) ++ rest := by
        rw [skipChar_render_match ',' _ (by decide)]
        exact skipWhitespace_no_ws (wsChar_of_digit (curChar_renderRow_digit w ws rest))
      show ((parseInt _).1 :: (readRow (w :: ws).length _).1, _) = _
      rw [h1]
      simp only [List.length_cons, Nat.succ_ne_zero, if_false]
      have ih2 := ih rest hrest
      rw [List.length_cons] at ih2
      rw [h2, ih2]

theorem topoLoop_skip (fuel : Nat) (s : List Char) (numF : Nat) (m : List (List Nat)) :
    topoLoop fuel s numF m = topoLoop fuel (skipWhitespace s) numF m := by
  cases fuel with
  | zero => rfl
  | succ n =>
    have hid := skipWhitespace_idem s
    cases s with
    | nil => rfl
    | cons c0 t0 =>
      cases hs : skipWhitespace (c0 :: t0) with
      | nil =>
        simp only [topoLoop, isEOF_cons, isEOF_nil, hs, Bool.false_eq_true, if_false, if_true]
      | cons c t =>
        rw [hs] at hid
        simp only [topoLoop, isEOF_cons, Bool.false_eq_true, if_false, hs, hid]

theorem skipWhitespace_renderTopo (lines : List (Nat × List Nat)) :
    skipWhitespace (renderTopo lines) = renderTopo lines := by
  cases lines with
  | nil => rfl
  | cons l ls =>
    have hcur : curChar (renderTopo (l :: ls)) = 'F' := rfl
    exact skipWhitespace_no_ws (by rw [hcur]; decide)

theorem topoLoop_render : ∀ (lines : List (Nat × List Nat)) (fuel numF : Nat)
    (m : List (List Nat)),
    lines.length < fuel → 0 < numF →
    (∀ l ∈ lines, 1 ≤ l.1 ∧ l.1 ≤ numF ∧ l.2.length = numF) →
    topoLoop fuel (renderTopo lines) numF m = some (topoApply lines m) := by
  intro lines
  induction lines with
  | nil =>
    intro fuel numF m hf _ _
    cases fuel with
    | zero => omega
    | succ n => rfl
  | cons l ls ih =>
    intro fuel numF m hf hN hok
    obtain ⟨f, vs⟩ := l
    cases fuel with
    | zero => omega
    | succ n =>
      obtain ⟨hge, hle, hlen⟩ := hok (f, vs) (List.mem_cons_self _ _)
      have hr : renderTopo ((f, vs) :: ls)
          = 'F' :: (renderNat f ++ (':' :: (' ' :: (renderRow vs ++ '\n' :: renderTopo ls)))) :=
        rfl
      have h2 : parseId 'F' (renderTopo ((f, vs) :: ls))
          = (f, ':' :: (' ' :: (renderRow vs ++ '\n' :: renderTopo ls))) := by
        rw [hr]
        exact parseId_render 'F' (by decide) f _ (by rw [curChar_cons]; decide)
      obtain ⟨v0, vs0, hvs⟩ : ∃ v0 vs0, vs = v0 :: vs0 := by
        cases vs with
        | nil => simp at hlen; omega
        | cons v0 vs0 => exact ⟨v0, vs0, rfl⟩
      have h3 : skipChar ':' (':' :: (' ' :: (renderRow vs ++ '\n' :: renderTopo ls)))
          = renderRow vs ++ '\n' :: renderTopo ls := by
        rw [skipChar_render_match ':' _ (by decide), skipWhitespace_cons_ws _ (by decide), hvs]
        exact skipWhitespace_no_ws (wsChar_of_digit (curChar_renderRow_digit v0 vs0 _))
      have h4 : readRow numF (renderRow vs ++ '\n' :: renderTopo ls)
          = (vs, '\n' :: renderTopo ls) := by
        rw [← hlen]
        exact readRow_render vs _ (by rw [curChar_cons]; decide)
      have hsw : skipWhitespace (renderTopo ((f, vs) :: ls)) = renderTopo ((f, vs) :: ls) :=
        skipWhitespace_renderTopo _
      have hEOF : isEOF (renderTopo ((f, vs) :: ls)) = false := by rw [hr]; rfl
      simp only [topoLoop, hEOF, Bool.false_eq_true, if_false, hsw, h2, h3]
      rw [if_pos (by constructor <;> omega), h4]
      rw [topoLoop_skip, skipWhitespace_cons_ws _ (by decide), skipWhitespace_renderTopo,
        ih n numF _ (by simpa using hf) hN
          (fun l2 hl2 => hok l2 (List.mem_cons_of_mem _ hl2))]
      rfl

theorem topoLoop_shape : ∀ (fuel : Nat) (s : List Char) (numF : Nat) (m m1 : List (List Nat)),
    m.length = numF → (∀ r ∈ m, r.length = numF) →
    topoLoop fuel s numF m = some m1 →
    m1.length = numF ∧ ∀ r ∈ m1, r.length = numF := by
  intro fuel
  induction fuel with
  | zero =>
    intro s numF m m1 _ _ h
    exact absurd h (by simp [topoLoop])
  | succ n ih =>
    intro s numF m m1 hlen hrows h
    simp only [topoLoop] at h
    split at h
    · injection h with h
      subst h
      exact ⟨hlen, hrows⟩
    · split at h
      · injection h with h
        subst h
        exact ⟨hlen, hrows⟩
      · split at h
        · refine ih _ numF _ m1 ?_ ?_ h
          · rw [List.length_set]
            exact hlen
          · intro r hr
            rcases List.mem_or_eq_of_mem_set hr with h1 | h1
            · exact hrows r h1
            · rw [h1]
              exact readRow_length numF _
        · exact ih _ numF _ m1 hlen hrows h

/-- C9: after loadTopo the topology matrix is exactly N-by-N (N the FPGA
count) and starts as all zeros (an empty topo file returns the zero matrix);
on a well-formed file with in-range ids each line's exactly-N comma-delimited
values are read into row id - 1 (delimiter between values, not after the
last, as the rendered file has none after the last value), later lines
overwriting earlier ones for the same id; and an iteration whose parsed id
is out of range continues the loop with the matrix unchanged. -/
theorem c9_loadTopo_spec :
    (∀ (fuel : Nat) (input : List Char) (fpgas : List FPGA) (m : List (List Nat)),
      loadTopo fuel input fpgas = some (.ok m) →
      m.length = fpgas.length ∧ ∀ r ∈ m, r.length = fpgas.length) ∧
    (∀ fpgas : List FPGA, fpgas.isEmpty = false →
      loadTopo 1 [] fpgas
        = some (.ok (List.replicate fpgas.length (List.replicate fpgas.length 0)))) ∧
    (∀ (lines : List (Nat × List Nat)) (fpgas : List FPGA),
      fpgas.isEmpty = false →
      (∀ l ∈ lines, 1 ≤ l.1 ∧ l.1 ≤ fpgas.length ∧ l.2.length = fpgas.length) →
      loadTopo (lines.length + 1) (renderTopo lines) fpgas
        = some (.ok (topoApply lines
            (List.replicate fpgas.length (List.replicate fpgas.length 0)))) ∧
      ∀ i, (topoApply lines
            (List.replicate fpgas.length (List.replicate fpgas.length 0))).getD i []
          = (lastBy (fun l => l.1 == i + 1) lines).elim
              ((List.replicate fpgas.length (List.replicate fpgas.length 0)).getD i [])
              (fun l => l.2)) ∧
    (∀ (fuel : Nat) (s : List Char) (numF : Nat) (m : List (List Nat)),
      isEOF s = false → isEOF (skipWhitespace s) = false →
      ¬(0 < (parseId 'F' (skipWhitespace s)).1 ∧ (parseId 'F' (skipWhitespace s)).1 ≤ numF) →
      topoLoop (fuel + 1) s numF m
        = topoLoop fuel (skipChar ':' (parseId 'F' (skipWhitespace s)).2) numF m) := by
  refine ⟨?_, ?_, ?_, ?_⟩
  · intro fuel input fpgas m h
    rw [loadTopo] at h
    split at h
    · exact absurd h (by simp)
    · cases htl : topoLoop fuel input fpgas.length
          (List.replicate fpgas.length (List.replicate fpgas.length 0)) with
      | none => rw [htl] at h; exact absurd h (by simp)
      | some m1 =>
        rw [htl] at h
        simp only [Option.map_some', Option.some.injEq, Except.ok.injEq] at h
        rw [← h]
        refine topoLoop_shape fuel input fpgas.length _ m1 ?_ ?_ htl
        · exact List.length_replicate _ _
        · intro r hr
          rw [List.eq_of_mem_replicate hr]
          exact List.length_replicate _ _
  · intro fpgas h
    cases fpgas with
    | nil => exact absurd h (by simp)
    | cons f fs => rfl
  · intro lines fpgas hne hok
    have hN : 0 < fpgas.length := by
      cases fpgas with
      | nil => exact absurd hne (by simp)
      | cons f fs => simp
    constructor
    · rw [loadTopo, hne]
      simp only [Bool.false_eq_true, if_false]
      rw [topoLoop_render lines (lines.length + 1) fpgas.length _ (by omega) hN hok]
      rfl
    · intro i
      rw [topoApply]
      exact foldl_set_getD (fun l => l.1) (fun l => l.2) [] lines _ i
        (fun l hl => ⟨(hok l hl).1, by rw [List.length_replicate]; exact (hok l hl).2.1⟩)
  · intro fuel s numF m h1 h2 h3
    simp only [topoLoop, h1, h2, Bool.false_eq_true, if_false, if_neg h3]

/-- Witness for C9: the zero matrix on an empty file for one FPGA, its
shape, and the spec's two-line topology scenario. -/
theorem c9_loadTopo_spec_witness :
    (List.replicate 1 (List.replicate 1 0)).length = 1 ∧
    loadTopo 1 [] [(⟨1, 2, []⟩ : FPGA)]
      = some (.ok (List.replicate 1 (List.replicate 1 0))) ∧
    loadTopo 3 (renderTopo [(1, [0, 4]), (2, [4, 0])]) [⟨1, 2, []⟩, ⟨2, 3, []⟩]
      = some (.ok (topoApply [(1, [0, 4]), (2, [4, 0])]
          (List.replicate 2 (List.replicate 2 0)))) :=
  ⟨(c9_loadTopo_spec.1 1 [] [⟨1, 2, []⟩] _
      (c9_loadTopo_spec.2.1 [⟨1, 2, []⟩] (by decide))).1,
   c9_loadTopo_spec.2.1 [⟨1, 2, []⟩] (by decide),
   (c9_loadTopo_spec.2.2.1 [(1, [0, 4]), (2, [4, 0])] [⟨1, 2, []⟩, ⟨2, 3, []⟩]
      (by decide) (by decide)).1⟩

/-! Claim C8: symmetry of the logical-demand matrix. -/

/-- The matrix is square of the given side. -/
def msquare (N : Nat) (m : List (List Nat)) : Prop :=
  m.length = N ∧ ∀ r ∈ m, r.length = N

/-- The matrix is symmetric under mget. -/
def msym (m : List (List Nat)) : Prop := ∀ i j, mget m i j = mget m j i

theorem getD_of_lt {α : Type} {l : List α} {i : Nat} (d : α) (h : i < l.length) :
    l.getD i d = l[i] := by
  rw [List.getD_eq_getElem?_getD, List.getElem?_eq_getElem h]
  rfl

theorem bumpN_square {N : Nat} {m : List (List Nat)} (hsq : msquare N m) {a : Nat}
    (b : Nat) (ha : a < N) : msquare N (bumpN m a b) := by
  refine ⟨by rw [bumpN, List.length_set]; exact hsq.1, ?_⟩
  intro r hr
  rcases List.mem_or_eq_of_mem_set hr with h1 | h1
  · exact hsq.2 r h1
  · have haN : a < m.length := by rw [hsq.1]; exact ha
    rw [h1, List.length_set, getD_of_lt [] haN]
    exact hsq.2 _ (List.getElem_mem haN)

theorem mget_bumpN {N : Nat} {m : List (List Nat)} (hsq : msquare N m) {a b : Nat}
    (ha : a < N) (hb : b < N) (i j : Nat) :
    mget (bumpN m a b) i j = if i = a ∧ j = b then mget m a b + 1 else mget m i j := by
  have haN : a < m.length := by rw [hsq.1]; exact ha
  have hrow : (m.getD a []).length = N := by
    rw [getD_of_lt [] haN]
    exact hsq.2 _ (List.getElem_mem haN)
  have hbrow : b < (m.getD a []).length := by rw [hrow]; exact hb
  by_cases hi : i = a
  · subst hi
    rw [mget, bumpN, getD_set_same _ _ haN]
    by_cases hj : j = b
    · subst hj
      rw [getD_set_same _ _ hbrow, if_pos ⟨rfl, rfl⟩]
    · rw [getD_set_ne _ _ (fun he => hj he.symm), if_neg (fun hc => hj hc.2)]
      rfl
  · rw [mget, bumpN, getD_set_ne _ _ (fun he => hi he.symm),
      if_neg (fun hc => hi hc.1)]
    rfl

theorem bump2_sym {N : Nat} {m : List (List Nat)} (hsq : msquare N m) (hsym : msym m)
    {a b : Nat} (ha : a < N) (hb : b < N) (_hab : a ≠ b) :
    msym (bumpN (bumpN m a b) b a) := by
  intro i j
  have hsq1 : msquare N (bumpN m a b) := bumpN_square hsq b ha
  rw [mget_bumpN hsq1 hb ha i j, mget_bumpN hsq1 hb ha j i,
    mget_bumpN hsq ha hb i j, mget_bumpN hsq ha hb j i,
    mget_bumpN hsq ha hb b a]
  split_ifs <;>
    first
      | rfl
      | (exfalso; omega)
      | (exact hsym i j)
      | (rw [hsym b a])

theorem Int.toNat_cast_nat (n : Nat) : ((n : Int)).toNat = n := rfl

/-- A referenced FPGA slot is well-formed: it exists and stores id slot + 1
(any slot the info loader actually wrote satisfies this). -/
def slotOKb (d : Design) (o : Option Nat) : Bool :=
  match o with
  | none => true
  | some s => decide (s < d.fpgas.length) && ((d.fpgas.getD s sentinelFPGA).id == (s : Int) + 1)

/-- All FPGA references of a net (source and sinks) are well-formed. -/
def netWFb (d : Design) (net : Net) : Bool :=
  (match net.source with
   | none => true
   | some sid => slotOKb d (nodeSlot d sid)) &&
  net.sinks.all (fun k => slotOKb d (nodeSlot d k))

theorem slotOKb_elim {d : Design} {s : Nat} (h : slotOKb d (some s) = true) :
    s < d.fpgas.length ∧ slotFpgaId d s = (s : Int) + 1 := by
  rw [slotOKb, Bool.and_eq_true, decide_eq_true_eq, beq_iff_eq] at h
  exact ⟨h.1, h.2⟩

theorem demandSink_inv (d : Design) (srcSlot : Nat)
    (hsrc : slotOKb d (some srcSlot) = true)
    (m : List (List Nat)) (snk : Nat)
    (hsnk : slotOKb d (nodeSlot d snk) = true)
    (hsq : msquare d.fpgas.length m) (hsym : msym m) :
    msquare d.fpgas.length (demandSink d (slotFpgaId d srcSlot - 1) m snk)
      ∧ msym (demandSink d (slotFpgaId d srcSlot - 1) m snk) := by
  rw [demandSink]
  split
  · exact ⟨hsq, hsym⟩
  · next ks hks =>
    rw [hks] at hsnk
    obtain ⟨hklt, hkid⟩ := slotOKb_elim hsnk
    obtain ⟨hslt, hsid⟩ := slotOKb_elim hsrc
    have hsrcIdx : slotFpgaId d srcSlot - 1 = (srcSlot : Int) := by rw [hsid]; omega
    have hkIdx : slotFpgaId d ks - 1 = (ks : Int) := by rw [hkid]; omega
    by_cases hne : slotFpgaId d srcSlot - 1 ≠ slotFpgaId d ks - 1
    · rw [if_pos hne, hsrcIdx, hkIdx, Int.toNat_cast_nat, Int.toNat_cast_nat]
      have hab : srcSlot ≠ ks := by
        intro he
        rw [hsrcIdx, hkIdx, he] at hne
        exact hne rfl
      exact ⟨bumpN_square (bumpN_square hsq _ hslt) _ hklt,
        bump2_sym hsq hsym hslt hklt hab⟩
    · rw [if_neg hne]
      exact ⟨hsq, hsym⟩

theorem getD_replicate_of_ne {α : Type} (a d : α) (n i : Nat) :
    (List.replicate n a).getD i d = if i < n then a else d := by
  rw [List.getD_eq_getElem?_getD, List.getElem?_replicate]
  split <;> rfl

/-- C8: the logical-demand matrix of generateVisualizationData is symmetric,
for every model whose net endpoints reference well-formed FPGA slots (each
cross-FPGA sink increments both demand cells, so symmetry is an invariant of
the whole loop). -/
theorem c8_demand_symmetric (d : Design)
    (h : ∀ net ∈ d.nets, netWFb d net = true) (i j : Nat) :
    mget (logicalDemand d) i j = mget (logicalDemand d) j i := by
  have hinit : msquare d.fpgas.length
      (List.replicate d.fpgas.length (List.replicate d.fpgas.length 0))
      ∧ msym (List.replicate d.fpgas.length (List.replicate d.fpgas.length 0)) := by
    refine ⟨⟨List.length_replicate _ _, ?_⟩, ?_⟩
    · intro r hr
      rw [List.eq_of_mem_replicate hr]
      exact List.length_replicate _ _
    · have h0 : ∀ i j, mget
          (List.replicate d.fpgas.length (List.replicate d.fpgas.length 0)) i j = 0 := by
        intro i j
        rw [mget, getD_replicate_of_ne]
        split
        · exact getD_replicate_self _ _ _
        · rfl
      intro i j
      rw [h0, h0]
  have hall : msquare d.fpgas.length (logicalDemand d) ∧ msym (logicalDemand d) := by
    rw [logicalDemand]
    refine foldl_inv (fun m => msquare d.fpgas.length m ∧ msym m) (demandNet d)
      d.nets _ hinit ?_
    intro m net hnet hm
    have hw := h net hnet
    rw [netWFb, Bool.and_eq_true] at hw
    show msquare d.fpgas.length (demandNet d m net) ∧ msym (demandNet d m net)
    rw [demandNet]
    split
    · exact hm
    · next sid hsrc =>
      split
      · exact hm
      · next slot hslot =>
        have hsok : slotOKb d (some slot) = true := by
          have hw1 := hw.1
          rw [hsrc] at hw1
          simp only at hw1
          rw [← hslot]
          exact hw1
        refine foldl_inv (fun m => msquare d.fpgas.length m ∧ msym m)
          (demandSink d (slotFpgaId d slot - 1)) net.sinks m hm ?_
        intro m2 snk hsnk hm2
        have hsnkok : slotOKb d (nodeSlot d snk) = true := by
          have hw2 := hw.2
          rw [List.all_eq_true] at hw2
          exact hw2 snk hsnk
        exact demandSink_inv d slot hsok m2 snk hsnkok hm2.1 hm2.2
  exact hall.2 i j

/-- The spec scenario model: two FPGAs, nodes g1 g2 on F1, g3 on F2, one
net g1 -> g2 g3. -/
def demandScenario : Design :=
  ⟨[⟨1, 2, [1, 2]⟩, ⟨2, 3, [3]⟩],
   [(1, ⟨1, some 0⟩), (2, ⟨2, some 0⟩), (3, ⟨3, some 1⟩)],
   [⟨1, some 1, [2, 3], 1⟩],
   [[0, 4], [4, 0]]⟩

/-- Witness for C8 at the spec scenario, at cells (0,1) and (1,0). -/
theorem c8_demand_symmetric_witness :
    mget (logicalDemand demandScenario) 0 1 = mget (logicalDemand demandScenario) 1 0 :=
  c8_demand_symmetric demandScenario (by decide) 0 1

/-! Claims C7 and C10: Design::groupNetsByFpgaConnection.  The std::map keys
are the pattern strings compared lexicographically; the group map is built
as a key-sorted association list. -/

theorem strLt_irrefl : ∀ s : List Char, strLt s s = false := by
  intro s
  induction s with
  | nil => rfl
  | cons c t ih => simp [strLt, ih, lt_irrefl]

theorem strLt_ne {s t : List Char} (h : strLt s t = true) : s ≠ t := by
  intro he
  rw [he, strLt_irrefl] at h
  exact Bool.noConfusion h

theorem strLt_trans : ∀ {s t u : List Char},
    strLt s t = true → strLt t u = true → strLt s u = true := by
  intro s
  induction s with
  | nil =>
    intro t u h1 h2
    cases t with
    | nil => exact h2
    | cons b bs =>
      cases u with
      | nil => exact absurd h2 (by simp [strLt])
      | cons c cs => rfl
  | cons a as ih =>
    intro t u h1 h2
    cases t with
    | nil => exact absurd h1 (by simp [strLt])
    | cons b bs =>
      cases u with
      | nil => exact absurd h2 (by simp [strLt])
      | cons c cs =>
        simp only [strLt] at h1 h2 ⊢
        by_cases hab : a < b
        · by_cases hbc : b < c
          · rw [if_pos (lt_trans hab hbc)]
          · by_cases hcb : c < b
            · rw [if_neg hbc, if_pos hcb] at h2
              exact absurd h2 (by simp)
            · have hbc2 : b = c := le_antisymm (not_lt.mp hcb) (not_lt.mp hbc)
              rw [← hbc2, if_pos hab]
        · by_cases hba : b < a
          · rw [if_neg hab, if_pos hba] at h1
            exact absurd h1 (by simp)
          · have hab2 : a = b := le_antisymm (not_lt.mp hba) (not_lt.mp hab)
            rw [if_neg hab, if_neg hba] at h1
            by_cases hbc : b < c
            · rw [if_pos (hab2 ▸ hbc)]
            · by_cases hcb : c < b
              · rw [if_neg hbc, if_pos hcb] at h2
                exact absurd h2 (by simp)
              · have hbc2 : b = c := le_antisymm (not_lt.mp hcb) (not_lt.mp hbc)
                rw [if_neg hbc, if_neg hcb] at h2
                rw [if_neg (by rw [hab2, hbc2]; exact lt_irrefl c),
                  if_neg (by rw [hab2, hbc2]; exact lt_irrefl c)]
                exact ih h1 h2

theorem strLt_total : ∀ (s t : List Char), s ≠ t → strLt s t = true ∨ strLt t s = true := by
  intro s
  induction s with
  | nil =>
    intro t h
    cases t with
    | nil => exact absurd rfl h
    | cons c cs => left; rfl
  | cons a as ih =>
    intro t h
    cases t with
    | nil => right; rfl
    | cons b bs =>
      by_cases hab : a < b
      · left
        simp [strLt, hab]
      · by_cases hba : b < a
        · right
          simp [strLt, hba]
        · have he : a = b := le_antisymm (not_lt.mp hba) (not_lt.mp hab)
          subst he
          have hne : as ≠ bs := fun hh => h (by rw [hh])
          rcases ih bs hne with h1 | h1
          · left
            simp [strLt, lt_irrefl, h1]
          · right
            simp [strLt, lt_irrefl, h1]

/-- The group map's keys are strictly sorted (the std::map invariant). -/
def gsorted (gs : List (List Char × List Nat)) : Prop :=
  List.Pairwise (fun x y => strLt x.1 y.1 = true) gs

/-- Association lookup in the group map (first matching key). -/
def lookupG : List (List Char × List Nat) → List Char → Option (List Nat)
  | [], _ => none
  | (k0, g) :: t, k => if k0 = k then some g else lookupG t k

theorem mem_addGroup : ∀ {gs : List (List Char × List Nat)} {k : List Char} {i : Nat}
    {x : List Char × List Nat}, x ∈ addGroup gs k i → x ∈ gs ∨ x.1 = k := by
  intro gs
  induction gs with
  | nil =>
    intro k i x hx
    rw [addGroup] at hx
    rcases List.mem_singleton.mp hx with rfl
    exact Or.inr rfl
  | cons p t ih =>
    intro k i x hx
    obtain ⟨k0, g⟩ := p
    by_cases h1 : strLt k k0 = true
    · rw [addGroup, if_pos h1] at hx
      rcases List.mem_cons.mp hx with h2 | h2
      · exact Or.inr (by rw [h2])
      · exact Or.inl h2
    · by_cases h2 : k = k0
      · rw [addGroup, if_neg h1, if_pos h2] at hx
        rcases List.mem_cons.mp hx with h3 | h3
        · exact Or.inr (by rw [h3]; exact h2.symm)
        · exact Or.inl (List.mem_cons_of_mem _ h3)
      · rw [addGroup, if_neg h1, if_neg h2] at hx
        rcases List.mem_cons.mp hx with h3 | h3
        · exact Or.inl (by rw [h3]; exact List.mem_cons_self _ _)
        · rcases ih h3 with h4 | h4
          · exact Or.inl (List.mem_cons_of_mem _ h4)
          · exact Or.inr h4

theorem addGroup_sorted : ∀ {gs : List (List Char × List Nat)} (k : List Char) (i : Nat),
    gsorted gs → gsorted (addGroup gs k i) := by
  intro gs
  induction gs with
  | nil =>
    intro k i _
    exact List.pairwise_singleton _ _
  | cons p t ih =>
    intro k i h
    obtain ⟨k0, g⟩ := p
    rw [gsorted, List.pairwise_cons] at h
    by_cases h1 : strLt k k0 = true
    · rw [addGroup, if_pos h1, gsorted, List.pairwise_cons]
      refine ⟨?_, List.Pairwise.cons h.1 h.2⟩
      intro y hy
      rcases List.mem_cons.mp hy with h2 | h2
      · rw [h2]
        exact h1
      · exact strLt_trans h1 (h.1 y h2)
    · by_cases h2 : k = k0
      · rw [addGroup, if_neg h1, if_pos h2, gsorted, List.pairwise_cons]
        exact ⟨h.1, h.2⟩
      · rw [addGroup, if_neg h1, if_neg h2, gsorted, List.pairwise_cons]
        refine ⟨?_, ih k i h.2⟩
        intro y hy
        rcases mem_addGroup hy with h3 | h3
        · exact h.1 y h3
        · rw [h3]
          rcases strLt_total k k0 h2 with h4 | h4
          · exact absurd h4 h1
          · exact h4

theorem lookupG_none_of_lt : ∀ {gs : List (List Char × List Nat)} {k : List Char},
    (∀ y ∈ gs, strLt k y.1 = true) → lookupG gs k = none := by
  intro gs
  induction gs with
  | nil => intro k _; rfl
  | cons p t ih =>
    intro k hlt
    obtain ⟨k0, g⟩ := p
    rw [lookupG, if_neg, ih (fun y hy => hlt y (List.mem_cons_of_mem _ hy))]
    intro he
    exact strLt_ne (hlt (k0, g) (List.mem_cons_self _ _)) he.symm

theorem lookupG_addGroup_self : ∀ (gs : List (List Char × List Nat)) (k : List Char)
    (i : Nat), gsorted gs →
    lookupG (addGroup gs k i) k = some ((lookupG gs k).getD [] ++ [i]) := by
  intro gs
  induction gs with
  | nil =>
    intro k i _
    simp [addGroup, lookupG]
  | cons p t ih =>
    intro k i h
    obtain ⟨k0, g⟩ := p
    rw [gsorted, List.pairwise_cons] at h
    by_cases h1 : strLt k k0 = true
    · have hnone : lookupG ((k0, g) :: t) k = none := by
        refine lookupG_none_of_lt ?_
        intro y hy
        rcases List.mem_cons.mp hy with h2 | h2
        · rw [h2]
          exact h1
        · exact strLt_trans h1 (h.1 y h2)
      rw [addGroup, if_pos h1, lookupG, if_pos rfl, hnone]
      rfl
    · by_cases h2 : k = k0
      · rw [addGroup, if_neg h1, if_pos h2, lookupG, if_pos h2.symm, lookupG,
          if_pos h2.symm]
        rfl
      · rw [addGroup, if_neg h1, if_neg h2, lookupG, if_neg (fun he => h2 he.symm),
          ih k i h.2, lookupG, if_neg (fun he => h2 he.symm)]

theorem lookupG_addGroup_ne : ∀ (gs : List (List Char × List Nat)) (k k2 : List Char)
    (i : Nat), k2 ≠ k → lookupG (addGroup gs k i) k2 = lookupG gs k2 := by
  intro gs
  induction gs with
  | nil =>
    intro k k2 i hne
    simp [addGroup, lookupG, Ne.symm hne]
  | cons p t ih =>
    intro k k2 i hne
    obtain ⟨k0, g⟩ := p
    by_cases h1 : strLt k k0 = true
    · rw [addGroup, if_pos h1, lookupG, if_neg (fun he => hne he.symm)]
    · by_cases h2 : k = k0
      · rw [addGroup, if_neg h1, if_pos h2, lookupG, lookupG]
        by_cases h3 : k0 = k2
        · exact absurd (h2.trans h3) (fun he => hne he.symm)
        · rw [if_neg h3, if_neg h3]
      · rw [addGroup, if_neg h1, if_neg h2, lookupG, lookupG]
        by_cases h3 : k0 = k2
        · rw [if_pos h3, if_pos h3]
        · rw [if_neg h3, if_neg h3]
          exact ih k k2 i hne

theorem lookupG_of_mem_sorted : ∀ {gs : List (List Char × List Nat)}
    {k : List Char} {g : List Nat}, gsorted gs → (k, g) ∈ gs → lookupG gs k = some g := by
  intro gs
  induction gs with
  | nil =>
    intro k g _ h
    cases h
  | cons p t ih =>
    intro k g hs hmem
    obtain ⟨k0, g0⟩ := p
    rw [gsorted, List.pairwise_cons] at hs
    rcases List.mem_cons.mp hmem with h1 | h1
    · rw [Prod.mk.injEq] at h1
      rw [lookupG, if_pos h1.1.symm, h1.2]
    · have hne : k0 ≠ k := by
        intro he
        have := hs.1 (k, g) h1
        rw [he] at this
        exact strLt_ne this rfl
      rw [lookupG, if_neg hne]
      exact ih hs.2 h1

theorem mem_of_lookupG : ∀ {gs : List (List Char × List Nat)} {k : List Char}
    {g : List Nat}, lookupG gs k = some g → (k, g) ∈ gs := by
  intro gs
  induction gs with
  | nil =>
    intro k g h
    exact absurd h (by rw [lookupG]; simp)
  | cons p t ih =>
    intro k g h
    obtain ⟨k0, g0⟩ := p
    by_cases h1 : k0 = k
    · rw [lookupG, if_pos h1] at h
      injection h with h
      rw [← h, ← h1]
      exact List.mem_cons_self _ _
    · rw [lookupG, if_neg h1] at h
      exact List.mem_cons_of_mem _ (ih h)

/-! Decoding of connection-pattern keys.  The std::map key built by
groupNetsByFpgaConnection is a string; to reason about key equality we show
the key is parsed back to the (source id, counts) data that built it. -/

/-- Value of a digit string under the usual left fold. -/
def digitsVal (ds : List Char) : Nat := ds.foldl (fun a c => a * 10 + (c.toNat - 48)) 0

theorem foldl_digits_renderNat (n : Nat) : ∀ acc : Nat,
    (renderNat n).foldl (fun a c => a * 10 + (c.toNat - 48)) acc =
      acc * 10 ^ (renderNat n).length + n := by
  induction n using Nat.strong_induction_on with
  | _ n ih =>
    intro acc
    rw [renderNat]
    split
    · next h =>
      have hd := (digitChar_spec h).2
      simp only [List.foldl_cons, List.foldl_nil, List.length_cons, List.length_nil]
      rw [hd]
      norm_num
    · next h =>
      have h10 : n / 10 < n := Nat.div_lt_self (by omega) (by omega)
      have hm := (digitChar_spec (Nat.mod_lt n (by omega) : n % 10 < 10)).2
      rw [List.foldl_append, ih (n / 10) h10 acc]
      simp only [List.foldl_cons, List.foldl_nil, List.length_append, List.length_cons,
        List.length_nil, Nat.zero_add]
      rw [hm]
      have h2 : n / 10 * 10 + n % 10 = n := by omega
      calc (acc * 10 ^ (renderNat (n / 10)).length + n / 10) * 10 + n % 10
          = acc * (10 ^ (renderNat (n / 10)).length * 10) + (n / 10 * 10 + n % 10) := by ring
        _ = acc * 10 ^ ((renderNat (n / 10)).length + 1) + n := by rw [h2, pow_succ]

theorem digitsVal_renderNat (n : Nat) : digitsVal (renderNat n) = n := by
  rw [digitsVal, foldl_digits_renderNat]
  simp

theorem takeWhile_digits_append : ∀ (l r : List Char), (∀ c ∈ l, isDigitC c = true) →
    isDigitC (curChar r) = false →
    (l ++ r).takeWhile isDigitC = l ∧ (l ++ r).dropWhile isDigitC = r := by
  intro l
  induction l with
  | nil =>
    intro r _ hr
    cases r with
    | nil => exact ⟨rfl, rfl⟩
    | cons c t =>
      rw [curChar_cons] at hr
      exact ⟨by simp [List.takeWhile_cons, hr], by simp [List.dropWhile_cons, hr]⟩
  | cons c t ih =>
    intro r hl hr
    have hc : isDigitC c = true := hl c (List.mem_cons_self _ _)
    have iht := ih r (fun x hx => hl x (List.mem_cons_of_mem _ hx)) hr
    refine ⟨?_, ?_⟩
    · rw [List.cons_append]
      simp [List.takeWhile_cons, hc, iht.1]
    · rw [List.cons_append]
      simp [List.dropWhile_cons, hc, iht.2]

/-- Parse of an optionally negated digit run, mirroring the shape of intStr. -/
def parseSInt (s : List Char) : Option (Int × List Char) :=
  if curChar s = '-' then
    if isDigitC (curChar s.tail) then
      some (-(digitsVal (s.tail.takeWhile isDigitC) : Int), s.tail.dropWhile isDigitC)
    else none
  else
    if isDigitC (curChar s) then
      some ((digitsVal (s.takeWhile isDigitC) : Int), s.dropWhile isDigitC)
    else none

theorem parseSInt_render (k : Int) (r : List Char) (hr : isDigitC (curChar r) = false) :
    parseSInt (intStr k ++ r) = some (k, r) := by
  rw [intStr]
  by_cases hk : k < 0
  · rw [if_pos hk, List.cons_append, parseSInt]
    rw [if_pos (curChar_cons '-' _)]
    simp only [List.tail_cons]
    rw [if_pos (curChar_append_digit k.natAbs r)]
    obtain ⟨ht, hd⟩ := takeWhile_digits_append (renderNat k.natAbs) r (renderNat_digits _) hr
    rw [ht, hd, digitsVal_renderNat]
    have : -(k.natAbs : Int) = k := by omega
    rw [this]
  · rw [if_neg hk]
    have hdig := curChar_append_digit k.toNat r
    rw [parseSInt, if_neg (fun he => by rw [he] at hdig; exact absurd hdig (by decide)),
      if_pos hdig]
    obtain ⟨ht, hd⟩ := takeWhile_digits_append (renderNat k.toNat) r (renderNat_digits _) hr
    rw [ht, hd, digitsVal_renderNat]
    have : (k.toNat : Int) = k := Int.toNat_of_nonneg (by omega)
    rw [this]

/-- Parse of one "id(count)" fragment. -/
def parseEntryP (s : List Char) : Option ((Int × Nat) × List Char) :=
  (parseSInt s).bind (fun p =>
    if curChar p.2 = '(' then
      if isDigitC (curChar p.2.tail) then
        if curChar (p.2.tail.dropWhile isDigitC) = ')' then
          some ((p.1, digitsVal (p.2.tail.takeWhile isDigitC)),
            (p.2.tail.dropWhile isDigitC).tail)
        else none
      else none
    else none)

/-- The comma-prefixed rendering of all non-first entries. -/
def commaEnts (cs : List (Int × Nat)) : List Char :=
  (cs.map (fun e => ',' :: entryStr e)).flatten

/-- The comma-separated rendering of an entry list. -/
def entsStr : List (Int × Nat) → List Char
  | [] => []
  | e :: rest => entryStr e ++ commaEnts rest

/-- Parse of a comma-separated entry list (fuel-bounded). -/
def parseEntries : Nat → List Char → Option (List (Int × Nat))
  | 0, s => if s = [] then some [] else none
  | fuel + 1, s =>
    if s = [] then some []
    else
      (parseEntryP s).bind (fun p =>
        if p.2 = [] then some [p.1]
        else if curChar p.2 = ',' then (parseEntries fuel p.2.tail).map (fun l => p.1 :: l)
        else none)

/-- Parse of a whole connection-pattern key. -/
def parseKey (s : List Char) : Option (Int × List (Int × Nat)) :=
  (parseSInt s).bind (fun p =>
    if curChar p.2 = ':' then
      (parseEntries p.2.tail.length p.2.tail).map (fun cs => (p.1, cs))
    else none)

theorem entryStr_ne_nil (e : Int × Nat) : entryStr e ≠ [] := by
  rw [entryStr]
  simp

theorem parseEntryP_render (e : Int × Nat) (r : List Char) :
    parseEntryP (entryStr e ++ r) = some (e, r) := by
  have hshape : entryStr e ++ r = intStr e.1 ++ ('(' :: (renderNat e.2 ++ (')' :: r))) := by
    simp [entryStr, List.append_assoc]
  rw [hshape, parseEntryP, parseSInt_render e.1 _ (by rw [curChar_cons]; decide)]
  simp only [Option.some_bind]
  rw [if_pos (curChar_cons '(' _), List.tail_cons]
  rw [if_pos (curChar_append_digit e.2 (')' :: r))]
  obtain ⟨ht, hd⟩ := takeWhile_digits_append (renderNat e.2) (')' :: r) (renderNat_digits _)
    (by rw [curChar_cons]; decide)
  rw [ht, hd, digitsVal_renderNat, if_pos (curChar_cons ')' r)]
  rfl

theorem commaEnts_cons (x : Int × Nat) (r : List (Int × Nat)) :
    commaEnts (x :: r) = ',' :: entsStr (x :: r) := by
  simp [commaEnts, entsStr, List.map_cons, List.flatten_cons]

theorem commaEnts_length (cs : List (Int × Nat)) : cs.length ≤ (commaEnts cs).length := by
  induction cs with
  | nil => simp [commaEnts]
  | cons x r ih =>
    rw [commaEnts_cons, entsStr]
    have h1 : 1 ≤ (entryStr x).length := List.length_pos.mpr (entryStr_ne_nil x)
    simp only [List.length_cons, List.length_append]
    omega

theorem entsStr_length (cs : List (Int × Nat)) : cs.length ≤ (entsStr cs).length := by
  cases cs with
  | nil => simp [entsStr]
  | cons e rest =>
    rw [entsStr]
    have h1 : 1 ≤ (entryStr e).length := List.length_pos.mpr (entryStr_ne_nil e)
    have h2 := commaEnts_length rest
    simp only [List.length_cons, List.length_append]
    omega

theorem parseEntries_render : ∀ (cs : List (Int × Nat)) (fuel : Nat),
    cs.length ≤ fuel → parseEntries fuel (entsStr cs) = some cs := by
  intro cs
  induction cs with
  | nil =>
    intro fuel _
    cases fuel with
    | zero => rw [parseEntries, if_pos (show entsStr [] = [] from rfl)]
    | succ f => rw [parseEntries, if_pos (show entsStr [] = [] from rfl)]
  | cons e rest ih =>
    intro fuel hf
    have hne : entsStr (e :: rest) ≠ [] := by
      rw [entsStr]
      simp [entryStr_ne_nil]
    cases fuel with
    | zero => exact absurd hf (by simp)
    | succ f =>
      rw [parseEntries, if_neg hne, entsStr, parseEntryP_render e (commaEnts rest)]
      simp only [Option.some_bind]
      cases rest with
      | nil => rw [if_pos (show commaEnts [] = [] from rfl)]
      | cons x r =>
        rw [commaEnts_cons]
        rw [if_neg (by simp), if_pos (curChar_cons ',' _), List.tail_cons]
        rw [ih f (by simp at hf ⊢; omega)]
        rfl

theorem foldPattern_acc (src : Int) : ∀ (cs : List (Int × Nat)) (acc : List Char),
    (intStr src).length + 1 < acc.length →
    cs.foldl (fun acc e =>
      (if (intStr src).length + 1 < acc.length then acc ++ [','] else acc) ++ entryStr e) acc
      = acc ++ commaEnts cs := by
  intro cs
  induction cs with
  | nil =>
    intro acc _
    simp [commaEnts]
  | cons e rest ih =>
    intro acc hacc
    rw [List.foldl_cons, if_pos hacc]
    rw [ih _ (by simp only [List.length_append, List.length_cons, List.length_nil]; omega)]
    rw [commaEnts_cons, entsStr]
    simp [List.append_assoc]

theorem buildPattern_eq (src : Int) (cs : List (Int × Nat)) :
    buildPattern src cs = intStr src ++ ':' :: entsStr cs := by
  cases cs with
  | nil => simp [buildPattern, entsStr]
  | cons e rest =>
    rw [buildPattern, List.foldl_cons]
    rw [if_neg (by simp only [List.length_append, List.length_cons, List.length_nil]; omega)]
    rw [foldPattern_acc src rest _ (by
      have h1 : 1 ≤ (entryStr e).length := List.length_pos.mpr (entryStr_ne_nil e)
      simp only [List.length_append, List.length_cons, List.length_nil]
      omega)]
    rw [entsStr]
    simp [List.append_assoc]

theorem parseKey_render (f : Int) (cs : List (Int × Nat)) :
    parseKey (buildPattern f cs) = some (f, cs) := by
  rw [buildPattern_eq, parseKey, parseSInt_render f _ (by rw [curChar_cons]; decide)]
  simp only [Option.some_bind]
  rw [if_pos (curChar_cons ':' _), List.tail_cons]
  rw [parseEntries_render cs _ (entsStr_length cs)]
  rfl

theorem buildPattern_inj {f1 f2 : Int} {cs1 cs2 : List (Int × Nat)}
    (h : buildPattern f1 cs1 = buildPattern f2 cs2) : f1 = f2 ∧ cs1 = cs2 := by
  have h1 := parseKey_render f1 cs1
  rw [h, parseKey_render f2 cs2] at h1
  injection h1 with h1
  rw [Prod.mk.injEq] at h1
  exact ⟨h1.1.symm, h1.2.symm⟩

/-! The sinkFpgaCounts map: sortedness and the counting property. -/

/-- The std::map<int,int> invariant: keys strictly increasing. -/
def msorted (mp : List (Int × Nat)) : Prop := List.Pairwise (fun x y => x.1 < y.1) mp

/-- Reading a count from the map, missing keys giving 0. -/
def lookupCount : List (Int × Nat) → Int → Nat
  | [], _ => 0
  | (b, c) :: t, a => if b = a then c else lookupCount t a

/-- The sink-FPGA id of each resolvable sink, in sink order. -/
def sinkIdsOf (d : Design) (sinks : List Nat) : List Int :=
  sinks.filterMap (fun s => (nodeSlot d s).map (slotFpgaId d))

/-- The sink-FPGA id of each resolvable sink of a net. -/
def sinkFpgaIds (d : Design) (net : Net) : List Int := sinkIdsOf d net.sinks

theorem mem_incrSinkCount : ∀ {mp : List (Int × Nat)} {k : Int} {x : Int × Nat},
    x ∈ incrSinkCount mp k → x ∈ mp ∨ x.1 = k := by
  intro mp
  induction mp with
  | nil =>
    intro k x hx
    rw [incrSinkCount] at hx
    rcases List.mem_singleton.mp hx with rfl
    exact Or.inr rfl
  | cons p t ih =>
    intro k x hx
    obtain ⟨b, c⟩ := p
    by_cases h1 : k < b
    · rw [incrSinkCount, if_pos h1] at hx
      rcases List.mem_cons.mp hx with h2 | h2
      · exact Or.inr (by rw [h2])
      · exact Or.inl h2
    · by_cases h2 : k = b
      · rw [incrSinkCount, if_neg h1, if_pos h2] at hx
        rcases List.mem_cons.mp hx with h3 | h3
        · exact Or.inr (by rw [h3]; exact h2.symm)
        · exact Or.inl (List.mem_cons_of_mem _ h3)
      · rw [incrSinkCount, if_neg h1, if_neg h2] at hx
        rcases List.mem_cons.mp hx with h3 | h3
        · exact Or.inl (by rw [h3]; exact List.mem_cons_self _ _)
        · rcases ih h3 with h4 | h4
          · exact Or.inl (List.mem_cons_of_mem _ h4)
          · exact Or.inr h4

theorem incrSinkCount_sorted : ∀ {mp : List (Int × Nat)} (k : Int),
    msorted mp → msorted (incrSinkCount mp k) := by
  intro mp
  induction mp with
  | nil =>
    intro k _
    exact List.pairwise_singleton _ _
  | cons p t ih =>
    intro k h
    obtain ⟨b, c⟩ := p
    rw [msorted, List.pairwise_cons] at h
    by_cases h1 : k < b
    · rw [incrSinkCount, if_pos h1, msorted, List.pairwise_cons]
      refine ⟨?_, List.Pairwise.cons h.1 h.2⟩
      intro y hy
      rcases List.mem_cons.mp hy with h2 | h2
      · rw [h2]
        exact h1
      · exact lt_trans h1 (h.1 y h2)
    · by_cases h2 : k = b
      · rw [incrSinkCount, if_neg h1, if_pos h2, msorted, List.pairwise_cons]
        exact ⟨h.1, h.2⟩
      · rw [incrSinkCount, if_neg h1, if_neg h2, msorted, List.pairwise_cons]
        refine ⟨?_, ih k h.2⟩
        intro y hy
        rcases mem_incrSinkCount hy with h3 | h3
        · exact h.1 y h3
        · rw [h3]
          omega

theorem lookupCount_zero_of_lt : ∀ {mp : List (Int × Nat)} {k : Int},
    (∀ y ∈ mp, k < y.1) → lookupCount mp k = 0 := by
  intro mp
  induction mp with
  | nil => intro k _; rfl
  | cons p t ih =>
    intro k hlt
    obtain ⟨b, c⟩ := p
    rw [lookupCount, if_neg, ih (fun y hy => hlt y (List.mem_cons_of_mem _ hy))]
    have := hlt (b, c) (List.mem_cons_self _ _)
    omega

theorem lookupCount_incr_self : ∀ (mp : List (Int × Nat)) (k : Int), msorted mp →
    lookupCount (incrSinkCount mp k) k = lookupCount mp k + 1 := by
  intro mp
  induction mp with
  | nil =>
    intro k _
    simp [incrSinkCount, lookupCount]
  | cons p t ih =>
    intro k h
    obtain ⟨b, c⟩ := p
    rw [msorted, List.pairwise_cons] at h
    by_cases h1 : k < b
    · rw [incrSinkCount, if_pos h1, lookupCount, if_pos rfl, lookupCount, if_neg (by omega)]
      rw [lookupCount_zero_of_lt (fun y hy => lt_trans h1 (h.1 y hy))]
    · by_cases h2 : k = b
      · rw [incrSinkCount, if_neg h1, if_pos h2, lookupCount, if_pos h2.symm,
          lookupCount, if_pos h2.symm]
      · rw [incrSinkCount, if_neg h1, if_neg h2, lookupCount, if_neg (by omega),
          lookupCount, if_neg (by omega), ih k h.2]

theorem lookupCount_incr_ne : ∀ (mp : List (Int × Nat)) (k a : Int), a ≠ k →
    lookupCount (incrSinkCount mp k) a = lookupCount mp a := by
  intro mp
  induction mp with
  | nil =>
    intro k a hne
    rw [incrSinkCount, lookupCount, lookupCount, if_neg (show ¬(k = a) by omega)]
    rfl
  | cons p t ih =>
    intro k a hne
    obtain ⟨b, c⟩ := p
    by_cases h1 : k < b
    · rw [incrSinkCount, if_pos h1, lookupCount, if_neg (by omega)]
    · by_cases h2 : k = b
      · rw [incrSinkCount, if_neg h1, if_pos h2, lookupCount, lookupCount]
        by_cases h3 : b = a
        · omega
        · rw [if_neg h3, if_neg h3]
      · rw [incrSinkCount, if_neg h1, if_neg h2, lookupCount, lookupCount]
        by_cases h3 : b = a
        · rw [if_pos h3, if_pos h3]
        · rw [if_neg h3, if_neg h3]
          exact ih k a hne

theorem count_cons_int (a b : Int) (l : List Int) :
    (b :: l).count a = l.count a + if a = b then 1 else 0 := by
  by_cases h : a = b <;> simp [List.count_cons, h]

theorem sinkCounts_fold (d : Design) (f : Int) : ∀ (sinks : List Nat) (mp : List (Int × Nat)),
    msorted mp →
    msorted (sinks.foldl (sinkCountStep d f) mp) ∧
    ∀ a : Int, lookupCount (sinks.foldl (sinkCountStep d f) mp) a =
      lookupCount mp a + (if a = f then 0 else (sinkIdsOf d sinks).count a) := by
  intro sinks
  induction sinks with
  | nil =>
    intro mp hs
    refine ⟨hs, fun a => ?_⟩
    simp [sinkIdsOf]
  | cons s rest ih =>
    intro mp hs
    rw [List.foldl_cons]
    cases hns : nodeSlot d s with
    | none =>
      have hstep : sinkCountStep d f mp s = mp := by simp [sinkCountStep, hns]
      have hid : sinkIdsOf d (s :: rest) = sinkIdsOf d rest := by
        simp [sinkIdsOf, List.filterMap_cons, hns]
      rw [hstep]
      refine ⟨(ih mp hs).1, fun a => ?_⟩
      rw [(ih mp hs).2 a, hid]
    | some ks =>
      have hid : sinkIdsOf d (s :: rest) = slotFpgaId d ks :: sinkIdsOf d rest := by
        simp [sinkIdsOf, List.filterMap_cons, hns]
      by_cases hbf : slotFpgaId d ks = f
      · have hstep : sinkCountStep d f mp s = mp := by simp [sinkCountStep, hns, hbf]
        rw [hstep]
        refine ⟨(ih mp hs).1, fun a => ?_⟩
        rw [(ih mp hs).2 a, hid]
        by_cases haf : a = f
        · simp [haf]
        · have hab : ¬ (a = slotFpgaId d ks) := by rw [hbf]; exact haf
          rw [if_neg haf, if_neg haf, count_cons_int, if_neg hab]
          omega
      · have hstep : sinkCountStep d f mp s = incrSinkCount mp (slotFpgaId d ks) := by
          simp [sinkCountStep, hns, hbf]
        rw [hstep]
        have hs2 := incrSinkCount_sorted (slotFpgaId d ks) hs
        refine ⟨(ih _ hs2).1, fun a => ?_⟩
        rw [(ih _ hs2).2 a, hid]
        by_cases haf : a = f
        · rw [if_pos haf, if_pos haf,
            lookupCount_incr_ne mp _ a (by rw [haf]; exact fun he => hbf he.symm)]
        · rw [if_neg haf, if_neg haf, count_cons_int]
          by_cases hab : a = slotFpgaId d ks
          · rw [if_pos hab, hab, lookupCount_incr_self mp _ hs]
            omega
          · rw [if_neg hab, lookupCount_incr_ne mp _ a hab]
            omega

theorem netSinkCounts_sorted (d : Design) (net : Net) : msorted (netSinkCounts d net) := by
  rw [netSinkCounts]
  cases hsrc : netSrcFpgaId d net with
  | none => exact List.Pairwise.nil
  | some f => exact (sinkCounts_fold d f net.sinks [] List.Pairwise.nil).1

theorem netSinkCounts_count (d : Design) (net : Net) (f : Int)
    (h : netSrcFpgaId d net = some f) (a : Int) :
    lookupCount (netSinkCounts d net) a =
      if a = f then 0 else (sinkFpgaIds d net).count a := by
  have hm : netSinkCounts d net = net.sinks.foldl (sinkCountStep d f) [] := by
    rw [netSinkCounts, h]
  rw [hm, (sinkCounts_fold d f net.sinks [] List.Pairwise.nil).2 a]
  rw [show lookupCount [] a = 0 from rfl]
  rw [sinkFpgaIds]
  omega

theorem counts_eq_of_multiset {c1 c2 : List (Int × Nat)} (h1 : msorted c1) (h2 : msorted c2)
    (h : (c1 : Multiset (Int × Nat)) = (c2 : Multiset (Int × Nat))) : c1 = c2 := by
  haveI : IsAntisymm (Int × Nat) (fun x y => x.1 < y.1) :=
    ⟨fun a b hab hba => absurd (lt_trans hab hba) (lt_irrefl _)⟩
  exact List.eq_of_perm_of_sorted (Multiset.coe_eq_coe.mp h) h1 h2

/-! Characterisation of the group map built by groupNetsByFpgaConnection. -/

/-- The ids of the nets carrying a given pattern key, in file order. -/
def keyIds (d : Design) (nets : List Net) (k : List Char) : List Nat :=
  (nets.filter (fun n => decide (netKey d n = some k))).map Net.id

/-- Append under an optional map entry (absent entries behaving as []). -/
def optCat (o : Option (List Nat)) (l : List Nat) : Option (List Nat) :=
  match l with
  | [] => o
  | _ :: _ => some (o.getD [] ++ l)

theorem optCat_snoc (o : Option (List Nat)) (a : Nat) (l : List Nat) :
    optCat (some (o.getD [] ++ [a])) l = optCat o (a :: l) := by
  cases l with
  | nil => simp [optCat]
  | cons x t => simp [optCat]

theorem groupsFold_lookup (d : Design) (k : List Char) :
    ∀ (nets : List Net) (gs : List (List Char × List Nat)), gsorted gs →
      lookupG (nets.foldl (groupStep d) gs) k = optCat (lookupG gs k) (keyIds d nets k) := by
  intro nets
  induction nets with
  | nil =>
    intro gs _
    simp [keyIds, optCat]
  | cons n rest ih =>
    intro gs hs
    rw [List.foldl_cons]
    cases hk : netKey d n with
    | none =>
      have hstep : groupStep d gs n = gs := by simp [groupStep, hk]
      have hkeep : keyIds d (n :: rest) k = keyIds d rest k := by
        simp [keyIds, List.filter_cons, hk]
      rw [hstep, ih gs hs, hkeep]
    | some k2 =>
      have hstep : groupStep d gs n = addGroup gs k2 n.id := by simp [groupStep, hk]
      rw [hstep, ih _ (addGroup_sorted k2 n.id hs)]
      by_cases hkk : k2 = k
      · subst hkk
        rw [lookupG_addGroup_self gs k2 n.id hs]
        have hkeep : keyIds d (n :: rest) k2 = n.id :: keyIds d rest k2 := by
          simp [keyIds, List.filter_cons, hk]
        rw [hkeep, optCat_snoc]
      · rw [lookupG_addGroup_ne gs k2 k n.id (fun he => hkk he.symm)]
        have hkeep : keyIds d (n :: rest) k = keyIds d rest k := by
          simp [keyIds, List.filter_cons, hk, hkk]
        rw [hkeep]

theorem groupsFold_sorted (d : Design) : gsorted (groupsFold d) := by
  rw [groupsFold]
  refine foldl_inv gsorted (groupStep d) d.nets [] List.Pairwise.nil ?_
  intro gs n _ hgs
  cases hk : netKey d n with
  | none => simpa [groupStep, hk] using hgs
  | some k2 => simpa [groupStep, hk] using addGroup_sorted k2 n.id hgs

theorem lookupG_groupsFold (d : Design) (k : List Char) :
    lookupG (groupsFold d) k = optCat none (keyIds d d.nets k) :=
  groupsFold_lookup d k d.nets [] List.Pairwise.nil

theorem mem_groupsOf_iff (d : Design) (g : List Nat) :
    g ∈ groupsOf d ↔ (g ≠ [] ∧ ∃ k, keyIds d d.nets k = g) := by
  rw [groupsOf]
  constructor
  · intro hg
    obtain ⟨p, hp, hpe⟩ := List.mem_map.mp hg
    obtain ⟨k, v⟩ := p
    have hl : lookupG (groupsFold d) k = some v :=
      lookupG_of_mem_sorted (groupsFold_sorted d) hp
    rw [lookupG_groupsFold] at hl
    cases hids : keyIds d d.nets k with
    | nil =>
      rw [hids] at hl
      exact absurd hl (by simp [optCat])
    | cons x t =>
      rw [hids] at hl
      simp only [optCat, Option.getD_none, List.nil_append] at hl
      injection hl with hl
      refine ⟨?_, k, ?_⟩
      · rw [← hpe]
        simp only []
        rw [← hl]
        simp
      · rw [hids, ← hpe]
        simp only []
        rw [← hl]
  · rintro ⟨hne, k, hk⟩
    have hl : lookupG (groupsFold d) k = some g := by
      rw [lookupG_groupsFold, hk]
      cases g with
      | nil => exact absurd rfl hne
      | cons x t => simp [optCat]
    exact List.mem_map.mpr ⟨(k, g), mem_of_lookupG hl, rfl⟩

/-- C7: for two nets of the design whose sources resolve to an FPGA, when
groupNetsByFpgaConnection returns a group list, the two nets' ids land in a
common group exactly when the nets have the same source-FPGA id and the same
multiset of (sink-FPGA id, count) pairs; and each per-FPGA count is the number
of the net's resolvable sinks on that FPGA, sinks on the source's own FPGA
being excluded (count 0 there). -/
theorem c7_grouping_iff (d : Design) (m n : Net) (gs : List (List Nat))
    (hok : groupNetsByFpgaConnection d = .ok gs)
    (hm : m ∈ d.nets) (hn : n ∈ d.nets)
    (hnodup : (d.nets.map Net.id).Nodup)
    (f₁ f₂ : Int)
    (hsm : netSrcFpgaId d m = some f₁) (hsn : netSrcFpgaId d n = some f₂) :
    ((∃ g ∈ gs, m.id ∈ g ∧ n.id ∈ g) ↔
      f₁ = f₂ ∧
        ((netSinkCounts d m : Multiset (Int × Nat)) =
          (netSinkCounts d n : Multiset (Int × Nat)))) ∧
    (∀ a : Int, lookupCount (netSinkCounts d m) a =
      if a = f₁ then 0 else (sinkFpgaIds d m).count a) := by
  have hgs : gs = groupsOf d := by
    rw [groupNetsByFpgaConnection] at hok
    by_cases hc : (d.nets.isEmpty || d.fpgas.isEmpty) = true
    · rw [if_pos hc] at hok
      exact absurd hok (by simp)
    · rw [if_neg hc] at hok
      injection hok with hok
      exact hok.symm
  subst hgs
  refine ⟨?_, netSinkCounts_count d m f₁ hsm⟩
  have hkeym : netKey d m = some (buildPattern f₁ (netSinkCounts d m)) := by
    rw [netKey, hsm, Option.map_some']
  have hkeyn : netKey d n = some (buildPattern f₂ (netSinkCounts d n)) := by
    rw [netKey, hsn, Option.map_some']
  constructor
  · rintro ⟨g, hg, hmg, hng⟩
    obtain ⟨hne, k, hk⟩ := (mem_groupsOf_iff d g).mp hg
    rw [← hk] at hmg hng
    obtain ⟨m2, hm2f, hm2id⟩ := List.mem_map.mp hmg
    obtain ⟨n2, hn2f, hn2id⟩ := List.mem_map.mp hng
    obtain ⟨hm2mem, hm2key⟩ := List.mem_filter.mp hm2f
    obtain ⟨hn2mem, hn2key⟩ := List.mem_filter.mp hn2f
    have hm2k : netKey d m2 = some k := of_decide_eq_true hm2key
    have hn2k : netKey d n2 = some k := of_decide_eq_true hn2key
    have hmm : m2 = m := List.inj_on_of_nodup_map hnodup hm2mem hm hm2id
    have hnn : n2 = n := List.inj_on_of_nodup_map hnodup hn2mem hn hn2id
    rw [hmm, hkeym] at hm2k
    rw [hnn, hkeyn] at hn2k
    injection hm2k with hm2k
    injection hn2k with hn2k
    have hinj := buildPattern_inj (hm2k.trans hn2k.symm)
    exact ⟨hinj.1, by rw [hinj.2]⟩
  · rintro ⟨hf, hcs⟩
    have hcseq : netSinkCounts d m = netSinkCounts d n :=
      counts_eq_of_multiset (netSinkCounts_sorted d m) (netSinkCounts_sorted d n) hcs
    have hkeq : netKey d n = some (buildPattern f₁ (netSinkCounts d m)) := by
      rw [hkeyn, hf, hcseq]
    have hmid : m.id ∈ keyIds d d.nets (buildPattern f₁ (netSinkCounts d m)) :=
      List.mem_map.mpr ⟨m, List.mem_filter.mpr ⟨hm, decide_eq_true hkeym⟩, rfl⟩
    have hnid : n.id ∈ keyIds d d.nets (buildPattern f₁ (netSinkCounts d m)) :=
      List.mem_map.mpr ⟨n, List.mem_filter.mpr ⟨hn, decide_eq_true hkeq⟩, rfl⟩
    exact ⟨keyIds d d.nets (buildPattern f₁ (netSinkCounts d m)),
      (mem_groupsOf_iff d _).mpr ⟨List.ne_nil_of_mem hmid, _, rfl⟩, hmid, hnid⟩

/-- A two-net scenario: both nets run from FPGA 1 to one sink on FPGA 2. -/
def c7m : Net := ⟨1, some 1, [2], 1⟩

/-- The second net of the scenario, over different nodes on the same FPGAs. -/
def c7n : Net := ⟨2, some 3, [4], 1⟩

/-- The scenario design: two FPGAs, four mapped nodes, the two nets above. -/
def c7d : Design :=
  ⟨[⟨1, 2, []⟩, ⟨2, 3, []⟩],
   [(1, ⟨1, some 0⟩), (2, ⟨2, some 1⟩), (3, ⟨3, some 0⟩), (4, ⟨4, some 1⟩)],
   [c7m, c7n], []⟩

theorem c7d_fold : groupsFold c7d = [(buildPattern 1 [(2, 1)], [1, 2])] := by
  show groupStep c7d (groupStep c7d [] c7m) c7n = _
  show addGroup [(buildPattern 1 [(2, 1)], [1])] (buildPattern 1 [(2, 1)]) 2 = _
  have hlt : ¬ (strLt (buildPattern 1 [(2, 1)]) (buildPattern 1 [(2, 1)]) = true) := by
    rw [strLt_irrefl]
    exact Bool.false_ne_true
  rw [addGroup, if_neg hlt, if_pos rfl]
  rfl

theorem c7d_groups : groupsOf c7d = [[1, 2]] := by
  rw [groupsOf, c7d_fold]
  rfl

/-- C7 witness: on the concrete two-net design the nets share a group, and the
theorem recovers equal source-FPGA ids and equal count multisets. -/
theorem c7_grouping_iff_witness :
    (1 : Int) = 1 ∧
      ((netSinkCounts c7d c7m : Multiset (Int × Nat)) =
        (netSinkCounts c7d c7n : Multiset (Int × Nat))) :=
  (c7_grouping_iff c7d c7m c7n [[1, 2]]
      (by rw [groupNetsByFpgaConnection, if_neg (by decide), c7d_groups])
      (by decide) (by decide) (by decide) 1 1 rfl rfl).1.mp
    (by decide)

/-- C10: groupNetsByFpgaConnection reports its error exactly when the net list
or the FPGA table is empty; with both non-empty it returns the group list
normally; and, under unique net ids, a net whose source is unresolved or whose
source node has no FPGA assigned is omitted from every group. -/
theorem c10_grouping_errors :
    (∀ d : Design, groupNetsByFpgaConnection d = .error () ↔
      (d.nets = [] ∨ d.fpgas = [])) ∧
    (∀ d : Design, d.nets ≠ [] → d.fpgas ≠ [] →
      groupNetsByFpgaConnection d = .ok (groupsOf d)) ∧
    (∀ (d : Design) (net : Net), net ∈ d.nets → (d.nets.map Net.id).Nodup →
      netSrcSlot d net = none → ∀ g ∈ groupsOf d, net.id ∉ g) := by
  refine ⟨?_, ?_, ?_⟩
  · intro d
    rw [groupNetsByFpgaConnection]
    by_cases hc : (d.nets.isEmpty || d.fpgas.isEmpty) = true
    · rw [if_pos hc]
      simp only [Bool.or_eq_true, List.isEmpty_iff] at hc
      exact iff_of_true rfl hc
    · rw [if_neg hc]
      simp only [Bool.or_eq_true, List.isEmpty_iff] at hc
      exact iff_of_false (by simp) hc
  · intro d h1 h2
    rw [groupNetsByFpgaConnection,
      if_neg (by simp only [Bool.or_eq_true, List.isEmpty_iff]; tauto)]
  · intro d net hmem hnodup hsrc g hg hid
    obtain ⟨hne, k, hk⟩ := (mem_groupsOf_iff d g).mp hg
    rw [← hk] at hid
    obtain ⟨n2, hn2f, hn2id⟩ := List.mem_map.mp hid
    obtain ⟨hn2mem, hn2key⟩ := List.mem_filter.mp hn2f
    have hn2k : netKey d n2 = some k := of_decide_eq_true hn2key
    have hn2eq : n2 = net := List.inj_on_of_nodup_map hnodup hn2mem hmem hn2id
    rw [hn2eq, netKey, netSrcFpgaId, hsrc] at hn2k
    simp at hn2k

/-- A net list where nets 1 and 2 share a pattern and net 3 has no source. -/
def c10m : Net := ⟨1, some 1, [2], 1⟩

/-- The second net of the error-handling scenario, same pattern as the first. -/
def c10n : Net := ⟨2, some 1, [2], 1⟩

/-- The sourceless net of the error-handling scenario. -/
def c10o : Net := ⟨3, none, [], 1⟩

/-- The error-handling scenario design. -/
def c10d : Design :=
  ⟨[⟨1, 2, []⟩, ⟨2, 2, []⟩],
   [(1, ⟨1, some 0⟩), (2, ⟨2, some 1⟩)],
   [c10m, c10n, c10o], []⟩

/-- A fully empty design, for the error case. -/
def c10empty : Design := ⟨[], [], [], []⟩

theorem c10d_fold : groupsFold c10d = [(buildPattern 1 [(2, 1)], [1, 2])] := by
  show groupStep c10d (groupStep c10d (groupStep c10d [] c10m) c10n) c10o = _
  show groupStep c10d
    (addGroup [(buildPattern 1 [(2, 1)], [1])] (buildPattern 1 [(2, 1)]) 2) c10o = _
  have hlt : ¬ (strLt (buildPattern 1 [(2, 1)]) (buildPattern 1 [(2, 1)]) = true) := by
    rw [strLt_irrefl]
    exact Bool.false_ne_true
  rw [addGroup, if_neg hlt, if_pos rfl]
  rfl

theorem c10d_groups : groupsOf c10d = [[1, 2]] := by
  rw [groupsOf, c10d_fold]
  rfl

/-- C10 witness: the empty design errors, the concrete three-net design
returns normally, and its sourceless net (id 3) is in no group. -/
theorem c10_grouping_errors_witness :
    groupNetsByFpgaConnection c10empty = .error () ∧
    groupNetsByFpgaConnection c10d = .ok (groupsOf c10d) ∧
    (3 : Nat) ∉ ([1, 2] : List Nat) :=
  ⟨(c10_grouping_errors.1 c10empty).mpr (Or.inl rfl),
   c10_grouping_errors.2.1 c10d (by decide) (by decide),
   c10_grouping_errors.2.2 c10d c10o (by decide) (by decide) rfl [1, 2]
     (by rw [c10d_groups]; exact List.mem_singleton.mpr rfl)⟩
